import Mathlib

/-!
Verification of the newslens topic-clustering + TL;DR summarization pipeline.

Shallow embedding of the backend modules:
  * `app/article_clustering.py`  (ArticleClusterer)
  * `app/summarization_service.py` (SummarizationService)
  * `app/tldr_service.py` (TLDRService, in-memory cache)
  * `app/bias_analyzer.py` (BiasAnalyzer._categorize_bias)

Modelling conventions:
  * Python strings are Lean `String`s; the regex scanners are modelled
    character by character over `List Char` with ASCII character classes
    (the pipeline processes English news text).
  * numpy float vectors are idealized as `List ℚ` (exact arithmetic);
    `np.linalg.norm` minimisation is modelled by squared-distance
    minimisation, which selects the same argmin.
  * Python dicts are association lists preserving insertion order.
  * External collaborators (news fetch, sentence-transformer embeddings,
    DBSCAN labels, the abstractive summarizer) are inputs ("worlds"):
    the code branches on their availability/output, and exceptions they
    raise are `Except`/`Option` values, matching the try/except structure.
  * `datetime.now()` is a `Nat` timestamp; `strftime`/`isoformat` are
    abstract injective renderings (their format is never inspected).
-/

/-! ### ASCII character classes (Python `re` classes, `str.lower` etc.)

Written as membership in the explicit character ranges so that facts about
them can be settled by enumerating the finitely many members. -/

def ucChars : List Char :=
  ['A', 'B', 'C', 'D', 'E', 'F', 'G', 'H', 'I', 'J', 'K', 'L', 'M',
   'N', 'O', 'P', 'Q', 'R', 'S', 'T', 'U', 'V', 'W', 'X', 'Y', 'Z']

def lcChars : List Char :=
  ['a', 'b', 'c', 'd', 'e', 'f', 'g', 'h', 'i', 'j', 'k', 'l', 'm',
   'n', 'o', 'p', 'q', 'r', 's', 't', 'u', 'v', 'w', 'x', 'y', 'z']

def digChars : List Char := ['0', '1', '2', '3', '4', '5', '6', '7', '8', '9']

/-- `[A-Z]`. -/
def isUpperA (c : Char) : Bool := ucChars.contains c

/-- `[a-z]`. -/
def isLowerA (c : Char) : Bool := lcChars.contains c

/-- `[0-9]`. -/
def isDigitA (c : Char) : Bool := digChars.contains c

def isAlphaA (c : Char) : Bool := isUpperA c || isLowerA c

/-- Python `str.upper()` on one char, ASCII: `'a'..'z'` map to `'A'..'Z'`,
everything else is fixed. -/
def toUpperA (c : Char) : Char :=
  (((lcChars.zip ucChars).find? (fun p => p.1 == c)).map (fun p => p.2)).getD c

/-- Python `\w` (ASCII range): letters, digits, underscore. -/
def isWordA (c : Char) : Bool := isAlphaA c || isDigitA c || c = '_'

/-- Python `\s` (ASCII range). -/
def isWsA (c : Char) : Bool :=
  c = ' ' || c = '\t' || c = '\n' || c = '\r' || c = '\x0b' || c = '\x0c'

/-! ### Generic list helpers shared by several modules -/

/-- Distinct elements of a list in first-occurrence order: the key order of a
Python `dict` / `collections.Counter` built by repeated insertion. -/
def uniqAux [DecidableEq α] : List α → List α → List α
  | _, [] => []
  | seen, x :: xs =>
    if x ∈ seen then uniqAux seen xs else x :: uniqAux (x :: seen) xs

def uniqFirst [DecidableEq α] (l : List α) : List α := uniqAux [] l

/-- Insert into a descending-by-key list, before the first element whose key is
not strictly greater: the stable position used by Python's stable sorts. -/
def insDesc (key : α → Nat) (x : α) : List α → List α
  | [] => [x]
  | y :: ys => if key x < key y then y :: insDesc key x ys else x :: y :: ys

/-- Stable sort, descending by `key`: Python `sorted(l, key=key, reverse=True)`
(equal keys keep their original relative order). -/
def sortByDesc (key : α → Nat) : List α → List α
  | [] => []
  | x :: xs => insDesc key x (sortByDesc key xs)

/-- `collections.Counter(l).most_common(n)`: (element, count) pairs, counts
descending, ties in first-occurrence order (`heapq.nlargest` is stable). -/
def counterMostCommon (l : List String) (n : Nat) : List (String × Nat) :=
  (sortByDesc (fun p => p.2) ((uniqFirst l).map (fun e => (e, l.count e)))).take n

/-! ### Data model (spec §3, mirroring the dicts the Python code builds) -/

/-- An article as consumed by the clustering/summarization pipeline; only
`title` and `content` are ever read there (`url`/`source` are carried along). -/
structure Article where
  title : String
  content : String
  url : String := ""
  source : String := ""
deriving DecidableEq, Repr, Inhabited

/-- A cluster dict as built by `ArticleClusterer.cluster_articles`.
`cluster_id` is an `Int` because the DBSCAN path can surface numpy labels
(including `-1`). -/
structure Cluster where
  cluster_id : Int
  articles : List Article
  summary : String
  key_entities : List String
  size : Nat
deriving DecidableEq, Repr

/-- One entry of a `TLDRResult.summaries` list. -/
structure Summary where
  rank : Nat
  summary : String
  article_count : Nat
  key_entities : List String
deriving DecidableEq, Repr

/-- The category TL;DR dict. `generated_at`/`error` model optional dict keys:
`none` when the Python dict lacks the key. -/
structure TLDRResult where
  category : String
  date : String
  total_clusters : Nat
  total_articles : Nat
  summaries : List Summary
  generated_at : Option String := none
  error : Option String := none
deriving DecidableEq, Repr

/-! ### `ArticleClusterer.extract_entities` — regex scanners

`re.findall(r'\b[A-Z][a-z]+(?:\s+[A-Z][a-z]+)*\b', text)` plus three
organization patterns whose single capture group makes `findall` return only
the suffix word. Matching is modelled operationally: leftmost scan,
non-overlapping matches, greedy repetition with the only backtracking these
patterns admit (dropping a trailing `\s+[A-Z][a-z]+` group whose
word-boundary fails). Fuel arguments keep recursion structural; callers pass
the input length, which each step strictly consumes. -/

/-- Greedy extension of an already-matched capitalized word with
`(?:\s+[A-Z][a-z]+)*` followed by `\b`. `acc` is the match so far, `l` the
remaining input. `none`: no boundary can close the phrase here (next char is
a word char), so there is no match at this start position. -/
def capExtendF : Nat → List Char → List Char → Option (List Char × List Char)
  | 0, _, _ => none
  | fuel + 1, acc, l =>
    let ws := l.takeWhile isWsA
    if ws.isEmpty then
      match l with
      | [] => some (acc, [])
      | c :: _ => if isWordA c then none else some (acc, l)
    else
      match l.drop ws.length with
      | [] => some (acc, l)
      | c :: r =>
        if isUpperA c then
          let ls := r.takeWhile isLowerA
          if ls.isEmpty then some (acc, l)
          else
            match capExtendF fuel (acc ++ ws ++ c :: ls) (r.drop ls.length) with
            | some res => some res
            | none => some (acc, l)
        else some (acc, l)

/-- Try the capitalized-phrase pattern at the current position; `prevWord`
records whether the preceding char is a word char (leading `\b`). -/
def matchCapAt (prevWord : Bool) (l : List Char) : Option (List Char × List Char) :=
  if prevWord then none
  else
    match l with
    | [] => none
    | c :: r =>
      if isUpperA c then
        let ls := r.takeWhile isLowerA
        if ls.isEmpty then none
        else capExtendF l.length (c :: ls) (r.drop ls.length)
      else none

/-- `re.findall` scan for the capitalized-phrase pattern. -/
def scanCapF : Nat → Bool → List Char → List String
  | 0, _, _ => []
  | _ + 1, _, [] => []
  | fuel + 1, prevWord, c :: r =>
    match matchCapAt prevWord (c :: r) with
    | some (m, rest) => String.mk m :: scanCapF fuel (isWordA (m.getLastD c)) rest
    | none => scanCapF fuel (isWordA c) r

/-- Match a literal alternative. Returns the rest of the input on success. -/
def litMatch : List Char → List Char → Option (List Char)
  | [], rest => some rest
  | _ :: _, [] => none
  | a :: as, c :: r => if c = a then litMatch as r else none

/-- Try the suffix alternatives in regex order, each with its trailing `\b`;
on a boundary failure the engine backtracks to the next alternative. -/
def altMatch (alts : List (List Char)) (l : List Char) : Option (List Char × List Char) :=
  match alts with
  | [] => none
  | a :: as =>
    match litMatch a l with
    | some rest =>
      match rest with
      | [] => some (a, [])
      | c :: _ => if isWordA c then altMatch as l else some (a, rest)
    | none => altMatch as l

/-- Try `\b[A-Z][a-z]+\s+(alt1|...|altk)\b` at the current position; returns
the capture group (what `re.findall` yields) and the rest after the match. -/
def matchOrgAt (alts : List (List Char)) (prevWord : Bool) (l : List Char) :
    Option (List Char × List Char) :=
  if prevWord then none
  else
    match l with
    | [] => none
    | c :: r =>
      if isUpperA c then
        let ls := r.takeWhile isLowerA
        if ls.isEmpty then none
        else
          let r1 := r.drop ls.length
          let ws := r1.takeWhile isWsA
          if ws.isEmpty then none
          else altMatch alts (r1.drop ws.length)
      else none

/-- `re.findall` scan for one organization pattern. -/
def scanOrgF (alts : List (List Char)) : Nat → Bool → List Char → List String
  | 0, _, _ => []
  | _ + 1, _, [] => []
  | fuel + 1, prevWord, c :: r =>
    match matchOrgAt alts prevWord (c :: r) with
    | some (g, rest) => String.mk g :: scanOrgF alts fuel (isWordA (g.getLastD c)) rest
    | none => scanOrgF alts fuel (isWordA c) r

def orgAlts1 : List (List Char) :=
  [String.toList "Inc", String.toList "Corp", String.toList "LLC",
   String.toList "Ltd", String.toList "Company", String.toList "Corporation"]

def orgAlts2 : List (List Char) :=
  [String.toList "University", String.toList "College", String.toList "Institute"]

def orgAlts3 : List (List Char) :=
  [String.toList "Bank", String.toList "Financial", String.toList "Group"]

/-- `ArticleClusterer.extract_entities`. -/
def extract_entities (text : String) : List String :=
  let l := text.data
  scanCapF l.length false l ++
    scanOrgF orgAlts1 l.length false l ++
    scanOrgF orgAlts2 l.length false l ++
    scanOrgF orgAlts3 l.length false l

/-! ### Cluster entities, common theme, cluster headline -/

/-- The text built per article throughout the clusterer:
`f"{article.get('title', '')} {article.get('content', '')}"`. -/
def articleText (a : Article) : String := a.title ++ " " ++ a.content

def allEntities (articles : List Article) : List String :=
  (articles.map (fun a => extract_entities (articleText a))).flatten

/-- `ArticleClusterer._extract_cluster_entities`: concatenate per-article
extractions, take `most_common(10)`, keep entities with `len > 2` and
`count > 1`, return the first 5 of those. -/
def extract_cluster_entities (articles : List Article) : List String :=
  let all := allEntities articles
  (((counterMostCommon all 10).filter
      (fun p => decide (2 < p.1.length) && decide (1 < p.2))).map (fun p => p.1)).take 5

/-- `re.findall(r'\b[a-zA-Z]{n,}\b', text)`: maximal alphabetic runs of length
at least `minLen` whose neighbours are not word chars (shorter sub-runs cannot
match: their neighbours inside the run are letters). -/
def wordTokensF (minLen : Nat) : Nat → Bool → List Char → List String
  | 0, _, _ => []
  | _ + 1, _, [] => []
  | fuel + 1, prevWord, c :: r =>
    if isAlphaA c && !prevWord then
      let run := c :: r.takeWhile isAlphaA
      let rest := r.drop (r.takeWhile isAlphaA).length
      let okEnd :=
        match rest with
        | [] => true
        | d :: _ => !isWordA d
      if minLen ≤ run.length && okEnd then
        String.mk run :: wordTokensF minLen fuel true rest
      else wordTokensF minLen fuel true rest
    else wordTokensF minLen fuel (isWordA c) r

def wordTokens (minLen : Nat) (s : String) : List String :=
  wordTokensF minLen s.data.length false s.data

/-- ASCII model of `str.lower()` (Lean's `Char.toLower` lowers exactly ASCII). -/
def lowerStr (s : String) : String := String.mk (s.data.map Char.toLower)

/-- The stop-word set of `ArticleClusterer._find_common_theme`. -/
def stopWordsTheme : List String :=
  ["the", "and", "for", "are", "but", "not", "you", "all", "can", "had", "her",
   "was", "one", "our", "out", "day", "get", "has", "him", "his", "how", "its",
   "may", "new", "now", "old", "see", "two", "who", "boy", "did", "man", "oil",
   "sit", "try", "use", "way", "with", "this", "that", "from", "they", "know",
   "want", "been", "good", "much", "some", "time", "very", "when", "come",
   "here", "just", "like", "long", "make", "many", "over", "such", "take",
   "than", "them", "well", "were"]

/-- `ArticleClusterer._find_common_theme`. -/
def find_common_theme (titles : List String) : List String :=
  if titles.length < 2 then []
  else
    let all_words := (titles.map (fun t => wordTokens 3 (lowerStr t))).flatten
    ((counterMostCommon all_words 10).filter
        (fun p => !(stopWordsTheme.contains p.1) && decide (1 < p.2))).map (fun p => p.1)

/-- Python `max(titles, key=len)`: the first title of maximal length. -/
def maxByLen : List String → String
  | [] => ""
  | t :: ts => ts.foldl (fun best x => if best.length < x.length then x else best) t

/-- `ArticleClusterer._create_cluster_summary` (the `descriptions` list the
source assigns is never read afterwards and is omitted). -/
def create_cluster_summary (articles : List Article) : String :=
  if articles.isEmpty then "No articles in cluster"
  else if articles.length = 1 then (articles.headD default).title
  else
    let titles := (articles.map (fun a => a.title)).filter (fun t => t ≠ "")
    let common_words := find_common_theme titles
    if !titles.isEmpty then
      let main_title := maxByLen titles
      if !common_words.isEmpty then
        main_title ++ " (Related to: " ++ String.intercalate ", " (common_words.take 3) ++ ")"
      else main_title
    else "Multiple related articles"

/-! ### `ArticleClusterer.cluster_articles`

The embedding provider and DBSCAN are external collaborators: the embedding
path receives their outputs (`embeddings`, per-article `labels`, `-1` =
noise) as world data. `np.mean(axis=0)` / `np.linalg.norm` are exact over ℚ;
`min` over `(distance, cluster_id)` pairs is the lexicographic minimum,
keeping the first of equals, exactly as Python's tuple `min`. -/

/-- `np.mean(vs, axis=0)` (all vectors of equal length). -/
def meanVec (vs : List (List ℚ)) : List ℚ :=
  match vs with
  | [] => []
  | v :: _ =>
    (List.range v.length).map (fun j => ((vs.map (fun u => u.getD j 0)).sum) / (vs.length : ℚ))

/-- Mean embedding of the members of cluster `cid` under labelling `labels`. -/
def centroid (emb : List (List ℚ)) (labels : List Int) (cid : Int) : List ℚ :=
  meanVec (((labels.zip emb).filter (fun p => decide (p.1 = cid))).map (fun p => p.2))

/-- Squared Euclidean distance; minimising it selects the same cluster as
minimising `np.linalg.norm`. -/
def sqDist (u v : List ℚ) : ℚ := ((u.zip v).map (fun p => (p.1 - p.2) ^ 2)).sum

/-- Strict lexicographic comparison on `(distance, cluster_id)` pairs:
Python tuple `<`. -/
def ltLexB (a b : ℚ × Int) : Bool :=
  decide (a.1 < b.1) || (decide (a.1 = b.1) && decide (a.2 < b.2))

/-- Python `min` over a list of `(distance, cluster_id)` tuples: the
lexicographic minimum, keeping the first of equals. -/
def minLex : List (ℚ × Int) → Option (ℚ × Int)
  | [] => none
  | p :: ps => some (ps.foldl (fun b x => if ltLexB x b then x else b) p)

/-- Cluster ids other than `-1` present in a labelling (distinct). -/
def nonNoiseIds (labels : List Int) : List Int :=
  uniqFirst (labels.filter (fun l => decide (l ≠ -1)))

/-- One iteration of the noise-reassignment loop body for noise index `idx`:
compute distances from `embeddings[idx]` to each non-noise cluster's centroid
under the CURRENT labelling (which includes earlier reassignments), and set
`cluster_labels[idx]` to the nearest; keep `-1` when no non-noise cluster
exists (`distances` empty). -/
def noiseStep (emb : List (List ℚ)) (labels : List Int) (idx : Nat) : List Int :=
  match minLex ((nonNoiseIds labels).map
      (fun cid => (sqDist (emb.getD idx []) (centroid emb labels cid), cid))) with
  | none => labels
  | some dc => labels.set idx dc.2

/-- `np.where(cluster_labels == -1)[0]`: the noise indices of the ORIGINAL
labelling, in increasing order. -/
def noiseIdxs (labels : List Int) : List Nat :=
  (List.range labels.length).filter (fun i => decide (labels.getD i 0 = -1))

/-- The labelling after processing the first `k` noise indices. -/
def reassignUpto (emb : List (List ℚ)) (labels : List Int) (k : Nat) : List Int :=
  ((noiseIdxs labels).take k).foldl (noiseStep emb) labels

/-- The whole noise-reassignment loop (lines 112–128 of the source). -/
def reassignNoise (emb : List (List ℚ)) (labels : List Int) : List Int :=
  (noiseIdxs labels).foldl (noiseStep emb) labels

/-- Group articles by label, keys in first-occurrence order, members in input
order: the `clusters` dict built on lines 130–135. -/
def groupByLabel (labels : List Int) (articles : List Article) : List (Int × List Article) :=
  let pairs := labels.zip articles
  (uniqFirst labels).map (fun l => (l, (pairs.filter (fun p => decide (p.1 = l))).map (fun p => p.2)))

/-- The cluster dict literal each path of the source builds. -/
def mkCluster (cid : Int) (arts : List Article) : Cluster :=
  { cluster_id := cid, articles := arts, summary := create_cluster_summary arts,
    key_entities := extract_cluster_entities arts, size := arts.length }

/-- "All articles as one cluster": the degenerate return (lines 71–79) and the
error fallbacks (lines 156–165, 286–295), which build the identical dict. -/
def single_cluster_all (articles : List Article) : List Cluster := [mkCluster 0 articles]

/-- The stop-word set literal of `_fallback_clustering` (duplicates as in the
source; set membership is unaffected). -/
def stopWordsFallback : List String :=
  ["this", "that", "with", "from", "they", "have", "been", "will", "said",
   "more", "than", "also", "each", "which", "their", "time", "very", "when",
   "much", "new", "some", "these", "may", "other", "after", "first", "well",
   "year", "work", "such", "make", "over", "think", "also", "back", "where",
   "much", "before", "move", "right", "boy", "old", "too", "same", "she",
   "all", "there", "when", "up", "use", "word", "how", "said", "an", "each",
   "which", "do", "their", "time", "if", "will", "about", "out", "many",
   "then", "them", "can", "only", "other", "new", "some", "what", "time",
   "very", "when", "much", "get", "through", "back", "much", "before", "go",
   "good", "new", "want", "because", "any", "these", "give", "day", "most", "us"]

/-- Top keywords of one article in `_fallback_clustering`:
`re.findall(r'\b[a-zA-Z]{4,}\b', lowered text)`, `most_common(5)`, stop-word
filtered. -/
def topKeywords (a : Article) : List String :=
  let text := lowerStr a.title ++ " " ++ lowerStr a.content
  let words := wordTokens 4 text
  ((counterMostCommon words 5).filter (fun p => !(stopWordsFallback.contains p.1))).map
    (fun p => p.1)

/-- `keyword_groups[keyword].append(article)`: dict update preserving key
order. -/
def appendToGroup : List (String × List Article) → String → Article → List (String × List Article)
  | [], _, _ => []
  | (k, arts) :: rest, kw, a =>
    if k = kw then (k, arts ++ [a]) :: rest else (k, arts) :: appendToGroup rest kw a

/-- The per-article grouping step of `_fallback_clustering`: join the first
existing group keyed by one of the top-3 keywords, else open a new group
keyed by the top keyword; an article with no keywords is dropped. -/
def assignArticle (groups : List (String × List Article)) (a : Article) :
    List (String × List Article) :=
  let tks := topKeywords a
  match (tks.take 3).find? (fun kw => groups.any (fun g => g.1 == kw)) with
  | some kw => appendToGroup groups kw a
  | none =>
    match tks with
    | [] => groups
    | kw :: _ => groups ++ [(kw, [a])]

/-- `ArticleClusterer._fallback_clustering` (try body; its except branch
returns `single_cluster_all`, covered by `ClusterWorld.errorFallback`).
`cluster_id` is the group's index among ALL groups (`enumerate` runs before
the size filter). -/
def fallback_clustering (articles : List Article) (mcs maxc : Nat) : List Cluster :=
  let groups := articles.foldl assignArticle []
  let clusters := groups.enum.filterMap (fun p =>
    if mcs ≤ p.2.2.length then some (mkCluster (p.1 : Int) p.2.2) else none)
  (sortByDesc (fun c => c.size) clusters).take maxc

/-- External state `cluster_articles` branches on: the embedding model loaded
and DBSCAN producing `labels` for the article texts; the model unavailable
(keyword fallback); or an exception inside the try block (everything degrades
to one cluster — also covers the fallback's own except branch, which builds
the identical dict). -/
inductive ClusterWorld where
  | embed (embeddings : List (List ℚ)) (labels : List Int)
  | fallback
  | errorFallback
deriving DecidableEq

/-- `ArticleClusterer.cluster_articles`. In the embedding path the computed
`n_clusters` (line 101) is dead code and `max_clusters` is never applied; the
noise-reassigned labelling is grouped, groups below `min_cluster_size` are
discarded, and the rest are sorted by size descending. -/
def cluster_articles (w : ClusterWorld) (articles : List Article) (mcs maxc : Nat) :
    List Cluster :=
  if articles.length < mcs then single_cluster_all articles
  else
    match w with
    | .errorFallback => single_cluster_all articles
    | .fallback => fallback_clustering articles mcs maxc
    | .embed emb labels =>
      let labels2 := reassignNoise emb labels
      let groups := groupByLabel labels2 articles
      let kept := groups.filter (fun g => decide (mcs ≤ g.2.length))
      sortByDesc (fun c => c.size) (kept.map (fun g => mkCluster g.1 g.2))

/-! ### `SummarizationService._clean_summary_text`

Four sequential `re.sub` passes plus `strip()` and first-letter
capitalization, modelled over `List Char`. -/

/-- Try `No\.\s*\d+\s*` at the current position; on success return the rest
after the (greedy, maximal) match. -/
def matchNo : List Char → Option (List Char)
  | 'N' :: 'o' :: '.' :: r =>
    let r1 := r.dropWhile isWsA
    let ds := r1.takeWhile isDigitA
    if ds.isEmpty then none
    else some ((r1.drop ds.length).dropWhile isWsA)
  | _ => none

/-- `re.sub(r'No\.\s*\d+\s*', '', text)`: left-to-right scan, each match
deleted, scanning resuming after the match. -/
def removeNoF : Nat → List Char → List Char
  | 0, l => l
  | _ + 1, [] => []
  | fuel + 1, c :: r =>
    match matchNo (c :: r) with
    | some rest => removeNoF fuel rest
    | none => c :: removeNoF fuel r

def removeNo (l : List Char) : List Char := removeNoF l.length l

/-- `re.sub(r'^The:\s*', '', text)` (anchored). -/
def stripThe1 : List Char → List Char
  | 'T' :: 'h' :: 'e' :: ':' :: r => r.dropWhile isWsA
  | l => l

/-- `re.sub(r'^(The|A|An):\s*', '', text)` (anchored; alternatives tried in
regex order — for input `An:` the `A` branch fails at `:` and `An` matches). -/
def stripArt : List Char → List Char
  | 'T' :: 'h' :: 'e' :: ':' :: r => r.dropWhile isWsA
  | 'A' :: ':' :: r => r.dropWhile isWsA
  | 'A' :: 'n' :: ':' :: r => r.dropWhile isWsA
  | l => l

/-- `re.sub(r'\s+', ' ', text)`: each maximal whitespace run becomes one
space. `prevWs` records whether we are inside a run already emitted. -/
def collapseAux : Bool → List Char → List Char
  | _, [] => []
  | prevWs, c :: r =>
    if isWsA c then
      if prevWs then collapseAux true r else ' ' :: collapseAux true r
    else c :: collapseAux false r

def collapseWs (l : List Char) : List Char := collapseAux false l

/-- Remove a trailing whitespace run. -/
def dropEndWs : List Char → List Char
  | [] => []
  | c :: r =>
    let r' := dropEndWs r
    if r'.isEmpty && isWsA c then [] else c :: r'

/-- Python `str.strip()`: drop leading and trailing whitespace. -/
def stripWs (l : List Char) : List Char := dropEndWs (l.dropWhile isWsA)

/-- `if text and text[0].islower(): text = text[0].upper() + text[1:]`
(ASCII model). -/
def capFirst : List Char → List Char
  | [] => []
  | c :: r => if isLowerA c then toUpperA c :: r else c :: r

/-- `SummarizationService._clean_summary_text`. -/
def clean_summary_text (s : String) : String :=
  String.mk (capFirst (stripWs (collapseWs (stripArt (stripThe1 (removeNo s.data))))))

/-! ### `SummarizationService.create_category_tldr`

`create_tldr_summary(cluster, "hybrid")` calls out to the transformer /
sumy / text-combination chain; per cluster it either produces a string or
raises (the per-cluster `except: continue`). It is therefore a world
parameter `summarize : Cluster → Option String`, `none` = raised. -/

/-- The summary-building loop: `enumerate` over the sorted, truncated cluster
list; `rank = i + 1` uses the enumeration index, which advances even when a
failed cluster is skipped. -/
def mkSummaries (summarize : Cluster → Option String) : Nat → List Cluster → List Summary
  | _, [] => []
  | i, c :: cs =>
    match summarize c with
    | some s =>
      { rank := i + 1, summary := s, article_count := c.size,
        key_entities := c.key_entities.take 3 } :: mkSummaries summarize (i + 1) cs
    | none => mkSummaries summarize (i + 1) cs

/-- `SummarizationService.create_category_tldr` (try body; the outer except
can only fire if the interpreter itself fails — per-cluster failures are the
inner catch modelled by `summarize = none`). -/
def create_category_tldr (summarize : Cluster → Option String) (clusters : List Cluster)
    (category : String) (max_summaries : Nat) : TLDRResult :=
  let sorted := sortByDesc (fun c => c.size) clusters
  { category := category, date := "Today", total_clusters := clusters.length,
    total_articles := (clusters.map (fun c => c.size)).sum,
    summaries := mkSummaries summarize 0 (sorted.take max_summaries) }

/-! ### `BiasAnalyzer._categorize_bias` -/

/-- `BiasAnalyzer._categorize_bias`: thresholds at ±0.2, strict comparisons. -/
def categorize_bias (bias_score : ℚ) : String :=
  if bias_score < -(1 / 5 : ℚ) then "left-leaning"
  else if (1 / 5 : ℚ) < bias_score then "right-leaning"
  else "neutral"

/-! ### `TLDRService` — orchestrator and cache

The cache is `self.cache`, a Python dict keyed by `f"tldr_{category}"`
holding `(result, cache_time)` pairs; modelled as an insertion-ordered
association list. `datetime.now()` is the `now : Nat` argument;
`cache_duration` (1 hour) is an abstract tick count. A stale comparison
`now - t < cacheDuration` with `now < t` is true in Python (negative
timedelta) and true here (truncated subtraction is 0). -/

abbrev Cache := List (String × TLDRResult × Nat)

def cacheDuration : Nat := 3600

def lookupCache (cache : Cache) (key : String) : Option (TLDRResult × Nat) :=
  (cache.find? (fun e => e.1 == key)).map (fun e => e.2)

/-- `self.cache[key] = value`: replace in place if present, else append. -/
def insertCache : Cache → String → TLDRResult × Nat → Cache
  | [], key, v => [(key, v)]
  | (k, v') :: rest, key, v =>
    if k = key then (key, v) :: rest else (k, v') :: insertCache rest key v

/-- Abstract rendering of `current_time.strftime("%Y-%m-%d")`. -/
def dateOf (t : Nat) : String := "date:" ++ toString t

/-- Abstract rendering of `current_time.isoformat()`. -/
def isoOf (t : Nat) : String := "iso:" ++ toString t

/-- External behaviour `get_category_tldr` depends on: the article fetch
(`fetch_multiple_pages`, `Except.error` = an exception surfacing from it),
the clustering world, the per-cluster summarizer, and `pipeFail`, an
exception raised between the fetch and the cache write (clustering or
summarization internals) that jumps to the outer except handler. -/
structure World where
  fetch : String → Except String (List Article)
  clusterWorld : ClusterWorld
  summarize : Cluster → Option String
  pipeFail : Option String

/-- The zero-valued dict returned when no articles are found (lines 54–62);
not cached, no `generated_at` key. -/
def noArticlesResult (category : String) (now : Nat) : TLDRResult :=
  { category := category, date := dateOf now, total_clusters := 0, total_articles := 0,
    summaries := [], error := some "No articles found" }

/-- The zero-valued dict built by the outer except handler (lines 88–97). -/
def errResult (category : String) (now : Nat) (e : String) : TLDRResult :=
  { category := category, date := dateOf now, total_clusters := 0, total_articles := 0,
    summaries := [], error := some e }

/-- The body of `get_category_tldr` after the cache check: fetch, cluster
(`min_cluster_size=2, max_clusters=8`), summarize (`max_summaries=5`), stamp
timestamps, write the cache. Returns (result, new cache, number of external
fetch calls made). -/
def generateTldr (w : World) (cache : Cache) (now : Nat) (category key : String) :
    TLDRResult × Cache × Nat :=
  match w.fetch category with
  | .error e => (errResult category now e, cache, 1)
  | .ok articles =>
    if articles.isEmpty then (noArticlesResult category now, cache, 1)
    else
      match w.pipeFail with
      | some e => (errResult category now e, cache, 1)
      | none =>
        let clusters := cluster_articles w.clusterWorld articles 2 8
        let body := create_category_tldr w.summarize clusters category 5
        let result := { body with generated_at := some (isoOf now), date := dateOf now }
        (result, insertCache cache key (result, now), 1)

/-- `TLDRService.get_category_tldr`. -/
def get_category_tldr (w : World) (cache : Cache) (now : Nat) (category : String)
    (force_refresh : Bool) : TLDRResult × Cache × Nat :=
  let key := "tldr_" ++ category
  match (if force_refresh then none else lookupCache cache key) with
  | some dt =>
    if now - dt.2 < cacheDuration then (dt.1, cache, 0)
    else generateTldr w cache now category key
  | none => generateTldr w cache now category key

/-- The freshness test of the cache check, as one predicate (used to state
"the generation path is taken"). -/
def cacheFresh (cache : Cache) (key : String) (now : Nat) : Bool :=
  match lookupCache cache key with
  | some dt => decide (now - dt.2 < cacheDuration)
  | none => false

/-! ## Theorems -/

/-- Any path-taken hypothesis (`force_refresh`, or a cache miss / stale
entry) reduces `get_category_tldr` to its generation body. -/
theorem get_eq_generate (w : World) (cache : Cache) (now : Nat) (category : String)
    (force : Bool)
    (hpath : force = true ∨ cacheFresh cache ("tldr_" ++ category) now = false) :
    get_category_tldr w cache now category force =
      generateTldr w cache now category ("tldr_" ++ category) := by
  rcases hpath with h | h
  · subst h
    simp [get_category_tldr]
  · unfold get_category_tldr
    cases hf : force with
    | true =>
      simp
    | false =>
      cases hl : lookupCache cache ("tldr_" ++ category) with
      | none => simp [hl]
      | some dt =>
        unfold cacheFresh at h
        rw [hl] at h
        simp at h
        simp [hl, h]

/-- C9: the combined bias score is categorized `left-leaning` exactly when it
is strictly below `-0.2`, `right-leaning` exactly when strictly above `0.2`,
and `neutral` otherwise; both boundary scores `±0.2` are `neutral`. -/
theorem bias_category_thresholds (s : ℚ) :
    (categorize_bias s = "left-leaning" ↔ s < -(1 / 5 : ℚ)) ∧
    (categorize_bias s = "right-leaning" ↔ (1 / 5 : ℚ) < s) ∧
    (categorize_bias s = "neutral" ↔ (-(1 / 5 : ℚ) ≤ s ∧ s ≤ (1 / 5 : ℚ))) ∧
    categorize_bias (1 / 5 : ℚ) = "neutral" ∧
    categorize_bias (-(1 / 5) : ℚ) = "neutral" := by
  have hlr : ("left-leaning" : String) ≠ "right-leaning" := by decide
  have hln : ("left-leaning" : String) ≠ "neutral" := by decide
  have hrn : ("right-leaning" : String) ≠ "neutral" := by decide
  refine ⟨?_, ?_, ?_, ?_, ?_⟩
  · unfold categorize_bias
    split_ifs with h1 h2
    · exact iff_of_true rfl h1
    · exact iff_of_false hlr.symm (by linarith)
    · exact iff_of_false hln.symm (by linarith)
  · unfold categorize_bias
    split_ifs with h1 h2
    · exact iff_of_false hlr (by linarith)
    · exact iff_of_true rfl h2
    · exact iff_of_false (Ne.symm hrn) (by linarith)
  · unfold categorize_bias
    split_ifs with h1 h2
    · exact iff_of_false hln (by intro h; linarith [h.1])
    · exact iff_of_false hrn (by intro h; linarith [h.2])
    · exact iff_of_true rfl ⟨by linarith, by linarith⟩
  · unfold categorize_bias
    norm_num
  · unfold categorize_bias
    norm_num

/-- C1: on a fresh cache hit without `force_refresh`, `get_category_tldr`
returns the cached result unchanged, makes no fetch call, and leaves the
cache untouched; a second such call within the window returns the identical
result, again with no fetch. -/
theorem cache_hit_returns_cached (w : World) (cache : Cache) (now now2 : Nat)
    (category : String) (data : TLDRResult) (t : Nat)
    (hlook : lookupCache cache ("tldr_" ++ category) = some (data, t))
    (h1 : now - t < cacheDuration) (h2 : now2 - t < cacheDuration) :
    get_category_tldr w cache now category false = (data, cache, 0) ∧
    get_category_tldr w (get_category_tldr w cache now category false).2.1 now2 category
        false = (data, cache, 0) := by
  have hfirst : get_category_tldr w cache now category false = (data, cache, 0) := by
    simp [get_category_tldr, hlook, h1]
  refine ⟨hfirst, ?_⟩
  rw [hfirst]
  simp [get_category_tldr, hlook, h2]

def tldrA : TLDRResult :=
  { category := "a", date := "d", total_clusters := 1, total_articles := 2, summaries := [] }

def worldStub : World :=
  { fetch := fun _ => .ok [], clusterWorld := .fallback, summarize := fun _ => some "s",
    pipeFail := none }

/-- Witness for C1 at a concrete world, cache and clock. -/
theorem cache_hit_returns_cached_witness :
    get_category_tldr worldStub [("tldr_a", tldrA, 5)] 10 "a" false =
      (tldrA, [("tldr_a", tldrA, 5)], 0) ∧
    get_category_tldr worldStub
        (get_category_tldr worldStub [("tldr_a", tldrA, 5)] 10 "a" false).2.1 11 "a"
        false = (tldrA, [("tldr_a", tldrA, 5)], 0) :=
  cache_hit_returns_cached worldStub [("tldr_a", tldrA, 5)] 10 11 "a" tldrA 5
    (by decide) (by decide) (by decide)

/-- C8: when the fetch returns no articles (on any generation path), the
result is the zero-valued dict with the explanatory note, and the cache is
exactly the one before the call. -/
theorem empty_fetch_zero_result (w : World) (cache : Cache) (now : Nat) (category : String)
    (force : Bool)
    (hfetch : w.fetch category = .ok [])
    (hpath : force = true ∨ cacheFresh cache ("tldr_" ++ category) now = false) :
    get_category_tldr w cache now category force = (noArticlesResult category now, cache, 1) ∧
    (noArticlesResult category now).total_clusters = 0 ∧
    (noArticlesResult category now).total_articles = 0 ∧
    (noArticlesResult category now).summaries = [] ∧
    (noArticlesResult category now).error = some "No articles found" := by
  refine ⟨?_, rfl, rfl, rfl, rfl⟩
  rw [get_eq_generate w cache now category force hpath]
  simp [generateTldr, hfetch]

/-- Witness for C8 at a concrete world, empty cache and clock. -/
theorem empty_fetch_zero_result_witness :
    get_category_tldr worldStub [] 7 "tech" false = (noArticlesResult "tech" 7, [], 1) ∧
    (noArticlesResult "tech" 7).total_clusters = 0 ∧
    (noArticlesResult "tech" 7).total_articles = 0 ∧
    (noArticlesResult "tech" 7).summaries = [] ∧
    (noArticlesResult "tech" 7).error = some "No articles found" :=
  empty_fetch_zero_result worldStub [] 7 "tech" false rfl (Or.inr rfl)

/-- C10: an exception raised after the cache check — by the fetch itself, or
anywhere between a non-empty fetch and the cache write — yields the
zero-valued dict carrying the error string, and the cache is exactly the one
before the call (the failed computation is never cached). -/
theorem internal_error_zero_result (w : World) (cache : Cache) (now : Nat)
    (category : String) (force : Bool) (e : String)
    (hpath : force = true ∨ cacheFresh cache ("tldr_" ++ category) now = false)
    (hfail : w.fetch category = .error e ∨
      ∃ arts, w.fetch category = .ok arts ∧ arts ≠ [] ∧ w.pipeFail = some e) :
    get_category_tldr w cache now category force = (errResult category now e, cache, 1) ∧
    (errResult category now e).total_clusters = 0 ∧
    (errResult category now e).total_articles = 0 ∧
    (errResult category now e).summaries = [] ∧
    (errResult category now e).error = some e := by
  refine ⟨?_, rfl, rfl, rfl, rfl⟩
  rw [get_eq_generate w cache now category force hpath]
  rcases hfail with h | ⟨arts, hok, hne, hpf⟩
  · simp [generateTldr, h]
  · simp [generateTldr, hok, hne, hpf]

def worldBoom : World :=
  { fetch := fun _ => .error "boom", clusterWorld := .fallback,
    summarize := fun _ => some "s", pipeFail := none }

/-- Witness for C10 at a concrete failing world. -/
theorem internal_error_zero_result_witness :
    get_category_tldr worldBoom [] 7 "tech" true = (errResult "tech" 7 "boom", [], 1) ∧
    (errResult "tech" 7 "boom").total_clusters = 0 ∧
    (errResult "tech" 7 "boom").total_articles = 0 ∧
    (errResult "tech" 7 "boom").summaries = [] ∧
    (errResult "tech" 7 "boom").error = some "boom" :=
  internal_error_zero_result worldBoom [] 7 "tech" true "boom" (Or.inl rfl) (Or.inl rfl)

/-- C3: with fewer articles than `min_cluster_size`, every world yields the
single degenerate cluster: all articles in input order, `cluster_id` 0,
`size` the input length. -/
theorem degenerate_single_cluster (w : ClusterWorld) (articles : List Article)
    (mcs maxc : Nat) (h : articles.length < mcs) :
    cluster_articles w articles mcs maxc =
      [{ cluster_id := 0, articles := articles,
         summary := create_cluster_summary articles,
         key_entities := extract_cluster_entities articles,
         size := articles.length }] := by
  unfold cluster_articles
  rw [if_pos h]
  rfl

def artAlpha : Article := { title := "Alpha", content := "" }

/-- Witness for C3 at one concrete short batch. -/
theorem degenerate_single_cluster_witness :
    cluster_articles ClusterWorld.fallback [artAlpha] 2 8 =
      [{ cluster_id := 0, articles := [artAlpha],
         summary := create_cluster_summary [artAlpha],
         key_entities := extract_cluster_entities [artAlpha],
         size := 1 }] :=
  degenerate_single_cluster ClusterWorld.fallback [artAlpha] 2 8 (by decide)

/-! ### Sorting lemmas for `sortByDesc` -/

theorem insDesc_perm (key : α → Nat) (x : α) (l : List α) :
    List.Perm (insDesc key x l) (x :: l) := by
  induction l with
  | nil => exact List.Perm.refl _
  | cons y ys ih =>
    unfold insDesc
    split
    · exact (ih.cons y).trans (List.Perm.swap x y ys)
    · exact List.Perm.refl _

theorem sortByDesc_perm (key : α → Nat) (l : List α) :
    List.Perm (sortByDesc key l) l := by
  induction l with
  | nil => exact List.Perm.refl _
  | cons x xs ih => exact (insDesc_perm key x (sortByDesc key xs)).trans (ih.cons x)

theorem insDesc_sorted (key : α → Nat) (x : α) (l : List α)
    (h : l.Pairwise (fun a b => key b ≤ key a)) :
    (insDesc key x l).Pairwise (fun a b => key b ≤ key a) := by
  induction l with
  | nil => simp [insDesc]
  | cons y ys ih =>
    rw [List.pairwise_cons] at h
    obtain ⟨hy, hys⟩ := h
    unfold insDesc
    split
    case isTrue hlt =>
      rw [List.pairwise_cons]
      refine ⟨fun b hb => ?_, ih hys⟩
      rcases List.mem_cons.mp ((insDesc_perm key x ys).mem_iff.mp hb) with rfl | hbys
      · exact le_of_lt hlt
      · exact hy b hbys
    case isFalse hge =>
      rw [List.pairwise_cons]
      refine ⟨fun b hb => ?_, List.pairwise_cons.mpr ⟨hy, hys⟩⟩
      rcases List.mem_cons.mp hb with rfl | hbys
      · exact Nat.le_of_not_lt hge
      · exact le_trans (hy b hbys) (Nat.le_of_not_lt hge)

theorem sortByDesc_sorted (key : α → Nat) (l : List α) :
    (sortByDesc key l).Pairwise (fun a b => key b ≤ key a) := by
  induction l with
  | nil => simp [sortByDesc]
  | cons x xs ih => exact insDesc_sorted key x _ ih

/-! ### Lemmas about the summary-building loop -/

theorem mkSummaries_count_sublist (f : Cluster → Option String) (i : Nat)
    (l : List Cluster) :
    ((mkSummaries f i l).map (fun s => s.article_count)).Sublist
      (l.map (fun c => c.size)) := by
  induction l generalizing i with
  | nil => simp [mkSummaries]
  | cons c cs ih =>
    unfold mkSummaries
    cases f c with
    | some s =>
      simp only [List.map_cons]
      exact (ih (i + 1)).cons₂ c.size
    | none =>
      simp only [List.map_cons]
      exact (ih (i + 1)).cons c.size

theorem mkSummaries_rank_lt (f : Cluster → Option String) (i : Nat) (l : List Cluster) :
    ∀ s ∈ mkSummaries f i l, i < s.rank := by
  induction l generalizing i with
  | nil => simp [mkSummaries]
  | cons c cs ih =>
    intro s hs
    unfold mkSummaries at hs
    cases hf : f c with
    | some t =>
      rw [hf] at hs
      rcases List.mem_cons.mp hs with rfl | hrec
      · exact Nat.lt_succ_self i
      · exact Nat.lt_of_succ_lt (ih (i + 1) s hrec)
    | none =>
      rw [hf] at hs
      exact Nat.lt_of_succ_lt (ih (i + 1) s hs)

theorem mkSummaries_rank_pairwise (f : Cluster → Option String) (i : Nat)
    (l : List Cluster) :
    (mkSummaries f i l).Pairwise (fun a b => a.rank < b.rank) := by
  induction l generalizing i with
  | nil => simp [mkSummaries]
  | cons c cs ih =>
    unfold mkSummaries
    cases f c with
    | some s =>
      rw [List.pairwise_cons]
      exact ⟨fun b hb => mkSummaries_rank_lt f (i + 1) cs b hb, ih (i + 1)⟩
    | none => exact ih (i + 1)

theorem mkSummaries_all_some (f : Cluster → Option String) (i : Nat) (l : List Cluster)
    (h : ∀ c ∈ l, (f c).isSome) :
    (mkSummaries f i l).map (fun s => s.rank) = List.range' (i + 1) l.length := by
  induction l generalizing i with
  | nil => simp [mkSummaries]
  | cons c cs ih =>
    obtain ⟨s, hs⟩ := Option.isSome_iff_exists.mp (h c (List.mem_cons_self c cs))
    unfold mkSummaries
    rw [hs]
    simp only [List.map_cons, List.length_cons, List.range'_succ]
    exact congrArg (List.cons (i + 1)) (ih (i + 1) (fun c hc => h c (List.mem_cons_of_mem _ hc)))

/-- C2 (amended): the summaries of `create_category_tldr` are sorted
descending by `article_count` and their ranks are strictly increasing
positions in the sorted, truncated cluster list; the ranks are exactly
`1..len(summaries)` when every cluster among the top `max_summaries`
summarizes successfully (a failed, skipped cluster leaves a gap instead). -/
theorem tldr_summaries_sorted_ranked (summarize : Cluster → Option String)
    (clusters : List Cluster) (category : String) (maxS : Nat) :
    ((create_category_tldr summarize clusters category maxS).summaries.Pairwise
        (fun a b => b.article_count ≤ a.article_count)) ∧
    ((create_category_tldr summarize clusters category maxS).summaries.Pairwise
        (fun a b => a.rank < b.rank)) ∧
    ((∀ c ∈ (sortByDesc (fun c => c.size) clusters).take maxS, (summarize c).isSome) →
      (create_category_tldr summarize clusters category maxS).summaries.map
          (fun s => s.rank) =
        List.range' 1 (create_category_tldr summarize clusters category maxS).summaries.length) := by
  have hsorted : ((sortByDesc (fun c : Cluster => c.size) clusters).take maxS).Pairwise
      (fun a b => b.size ≤ a.size) :=
    (sortByDesc_sorted (fun c : Cluster => c.size) clusters).sublist
      (List.take_sublist maxS _)
  refine ⟨?_, ?_, ?_⟩
  · have hm : (((sortByDesc (fun c : Cluster => c.size) clusters).take maxS).map
        (fun c => c.size)).Pairwise (fun a b => b ≤ a) := List.pairwise_map.mpr hsorted
    have h1 := hm.sublist (mkSummaries_count_sublist summarize 0
      ((sortByDesc (fun c : Cluster => c.size) clusters).take maxS))
    exact List.pairwise_map.mp h1
  · exact mkSummaries_rank_pairwise summarize 0 _
  · intro h
    have heq := mkSummaries_all_some summarize 0 _ h
    have hlen : (mkSummaries summarize 0
        ((sortByDesc (fun c : Cluster => c.size) clusters).take maxS)).length =
        ((sortByDesc (fun c : Cluster => c.size) clusters).take maxS).length := by
      have h2 := congrArg List.length heq
      simpa using h2
    show (mkSummaries summarize 0
        ((sortByDesc (fun c : Cluster => c.size) clusters).take maxS)).map
          (fun s => s.rank) =
      List.range' 1 (mkSummaries summarize 0
        ((sortByDesc (fun c : Cluster => c.size) clusters).take maxS)).length
    rw [heq, hlen]

def cexClusters : List Cluster :=
  [{ cluster_id := 0, articles := [], summary := "", key_entities := [], size := 3 },
   { cluster_id := 1, articles := [], summary := "", key_entities := [], size := 2 },
   { cluster_id := 2, articles := [], summary := "", key_entities := [], size := 2 }]

def cexSummarize : Cluster → Option String :=
  fun c => if c.cluster_id = 1 then none else some "s"

/-- C2 counterexample: three clusters of sizes 3, 2, 2 where summarizing the
second fails; the produced ranks are `[1, 3]`, not the dense `1..2` the claim
demands in runs with a skipped cluster. -/
theorem tldr_rank_gap_counterexample :
    ¬ ((create_category_tldr cexSummarize cexClusters "t" 5).summaries.map
          (fun s => s.rank) =
        List.range' 1 (create_category_tldr cexSummarize cexClusters "t" 5).summaries.length) := by
  decide

/-- Witness for C2 at a concrete input where every cluster summarizes. -/
theorem tldr_summaries_sorted_ranked_witness :
    (create_category_tldr (fun _ => some "s") cexClusters "t" 5).summaries.map
        (fun s => s.rank) =
      List.range' 1 (create_category_tldr (fun _ => some "s") cexClusters "t" 5).summaries.length :=
  (tldr_summaries_sorted_ranked (fun _ => some "s") cexClusters "t" 5).2.2 (fun _ _ => rfl)

/-! ### Lemmas about `uniqFirst` and entity lists -/

theorem mem_uniqAux [DecidableEq α] (seen l : List α) (a : α) :
    a ∈ uniqAux seen l ↔ a ∈ l ∧ a ∉ seen := by
  induction l generalizing seen with
  | nil => simp [uniqAux]
  | cons x xs ih =>
    unfold uniqAux
    split
    case isTrue hx =>
      rw [ih]
      simp only [List.mem_cons]
      constructor
      · rintro ⟨h1, h2⟩
        exact ⟨Or.inr h1, h2⟩
      · rintro ⟨rfl | h1, h2⟩
        · exact absurd hx h2
        · exact ⟨h1, h2⟩
    case isFalse hx =>
      simp only [List.mem_cons, ih, List.mem_cons]
      constructor
      · rintro (rfl | ⟨h1, h2⟩)
        · exact ⟨Or.inl rfl, hx⟩
        · exact ⟨Or.inr h1, fun hs => h2 (Or.inr hs)⟩
      · rintro ⟨h1, h2⟩
        by_cases hax : a = x
        · exact Or.inl hax
        · rcases h1 with rfl | h1
          · exact Or.inl rfl
          · exact Or.inr ⟨h1, fun hs => hs.elim hax h2⟩

theorem nodup_uniqAux [DecidableEq α] (seen l : List α) : (uniqAux seen l).Nodup := by
  induction l generalizing seen with
  | nil => simp [uniqAux]
  | cons x xs ih =>
    unfold uniqAux
    split
    · exact ih seen
    · refine List.nodup_cons.mpr ⟨fun hx => ?_, ih (x :: seen)⟩
      exact ((mem_uniqAux _ _ _).mp hx).2 (List.mem_cons_self x seen)

theorem mem_uniqFirst [DecidableEq α] (l : List α) (a : α) : a ∈ uniqFirst l ↔ a ∈ l := by
  unfold uniqFirst
  rw [mem_uniqAux]
  simp

theorem nodup_uniqFirst [DecidableEq α] (l : List α) : (uniqFirst l).Nodup :=
  nodup_uniqAux [] l

theorem counterMostCommon_fst_nodup (l : List String) (n : Nat) :
    ((counterMostCommon l n).map (fun p => p.1)).Nodup := by
  unfold counterMostCommon
  have hperm : List.Perm
      (sortByDesc (fun p => p.2) ((uniqFirst l).map (fun e => (e, l.count e))))
      ((uniqFirst l).map (fun e => (e, l.count e))) := sortByDesc_perm _ _
  have hbase : (((uniqFirst l).map (fun e => (e, l.count e))).map (fun p => p.1)).Nodup := by
    rw [List.map_map]
    have hid : ((fun p : String × Nat => p.1) ∘ fun e => (e, l.count e)) = id := rfl
    rw [hid, List.map_id]
    exact nodup_uniqFirst l
  have hnd2 : ((sortByDesc (fun p => p.2)
      ((uniqFirst l).map (fun e => (e, l.count e)))).map (fun p => p.1)).Nodup :=
    ((hperm.map (fun p => p.1)).nodup_iff).mpr hbase
  exact List.Nodup.sublist ((List.take_sublist n _).map _) hnd2

theorem extract_cluster_entities_nodup (articles : List Article) :
    (extract_cluster_entities articles).Nodup := by
  unfold extract_cluster_entities
  have h1 := (List.filter_sublist
    (l := counterMostCommon (allEntities articles) 10)
    (p := fun p => decide (2 < p.1.length) && decide (1 < p.2))).map (fun p => p.1)
  have h2 := List.Nodup.sublist h1 (counterMostCommon_fst_nodup (allEntities articles) 10)
  exact List.Nodup.sublist (List.take_sublist 5 _) h2

theorem extract_cluster_entities_len_le (articles : List Article) :
    (extract_cluster_entities articles).length ≤ 5 := by
  unfold extract_cluster_entities
  exact List.length_take_le 5 _

/-! ### Nonemptiness of groups on the embedding and fallback paths -/

def clusterWf : ClusterWorld → List Article → Prop
  | .embed _ labels, arts => labels.length = arts.length
  | _, _ => True

theorem noiseStep_length (emb : List (List ℚ)) (labels : List Int) (idx : Nat) :
    (noiseStep emb labels idx).length = labels.length := by
  unfold noiseStep
  split
  · rfl
  · simp [List.length_set]

theorem foldl_noiseStep_length (emb : List (List ℚ)) (idxs : List Nat) (labels : List Int) :
    (idxs.foldl (noiseStep emb) labels).length = labels.length := by
  induction idxs generalizing labels with
  | nil => rfl
  | cons i is ih => rw [List.foldl_cons, ih, noiseStep_length]

theorem mem_zip_of_mem_left {l1 : List Int} {l2 : List Article} (h : l1.length = l2.length)
    {x : Int} (hx : x ∈ l1) : ∃ a, (x, a) ∈ l1.zip l2 := by
  induction l1 generalizing l2 with
  | nil => cases hx
  | cons y ys ih =>
    cases l2 with
    | nil => simp at h
    | cons b bs =>
      rcases List.mem_cons.mp hx with rfl | hx2
      · exact ⟨b, List.mem_cons_self _ _⟩
      · obtain ⟨a, ha⟩ := ih (by simpa using h) hx2
        exact ⟨a, List.mem_cons_of_mem _ ha⟩

theorem groupByLabel_nonempty (labels : List Int) (articles : List Article)
    (h : labels.length = articles.length) :
    ∀ g ∈ groupByLabel labels articles, g.2 ≠ [] := by
  intro g hg
  unfold groupByLabel at hg
  obtain ⟨l, hl, rfl⟩ := List.mem_map.mp hg
  have hl2 : l ∈ labels := (mem_uniqFirst _ _).mp hl
  obtain ⟨a, ha⟩ := mem_zip_of_mem_left h hl2
  intro hempty
  have hmem : (l, a) ∈ (labels.zip articles).filter (fun p => decide (p.1 = l)) :=
    List.mem_filter.mpr ⟨ha, by simp⟩
  have hmem2 : a ∈ ((labels.zip articles).filter
      (fun p => decide (p.1 = l))).map (fun p => p.2) :=
    List.mem_map.mpr ⟨(l, a), hmem, rfl⟩
  have hempty2 : ((labels.zip articles).filter
      (fun p => decide (p.1 = l))).map (fun p => p.2) = [] := hempty
  rw [hempty2] at hmem2
  cases hmem2

theorem appendToGroup_ne_nil (groups : List (String × List Article)) (kw : String)
    (a : Article) (h : ∀ g ∈ groups, g.2 ≠ []) :
    ∀ g ∈ appendToGroup groups kw a, g.2 ≠ [] := by
  induction groups with
  | nil => simp [appendToGroup]
  | cons gr rest ih =>
    obtain ⟨k, arts⟩ := gr
    intro g hg
    unfold appendToGroup at hg
    split at hg
    · rcases List.mem_cons.mp hg with rfl | hg2
      · simp
      · exact h g (List.mem_cons_of_mem _ hg2)
    · rcases List.mem_cons.mp hg with rfl | hg2
      · exact h (k, arts) (List.mem_cons_self _ _)
      · exact ih (fun g' hg' => h g' (List.mem_cons_of_mem _ hg')) g hg2

theorem assignArticle_ne_nil (groups : List (String × List Article)) (a : Article)
    (h : ∀ g ∈ groups, g.2 ≠ []) : ∀ g ∈ assignArticle groups a, g.2 ≠ [] := by
  intro g hg
  simp only [assignArticle] at hg
  cases hfind : ((topKeywords a).take 3).find? (fun kw => groups.any (fun g => g.1 == kw)) with
  | some kw =>
    rw [hfind] at hg
    exact appendToGroup_ne_nil groups kw a h g hg
  | none =>
    rw [hfind] at hg
    cases htk : topKeywords a with
    | nil =>
      rw [htk] at hg
      exact h g hg
    | cons kw rest =>
      rw [htk] at hg
      rcases List.mem_append.mp hg with hg1 | hg2
      · exact h g hg1
      · rw [List.mem_singleton.mp hg2]
        simp

theorem fallback_groups_ne_nil (articles : List Article) :
    ∀ g ∈ articles.foldl assignArticle [], g.2 ≠ [] := by
  suffices h : ∀ (arts : List Article) (groups : List (String × List Article)),
      (∀ g ∈ groups, g.2 ≠ []) → ∀ g ∈ arts.foldl assignArticle groups, g.2 ≠ [] by
    exact h articles [] (by simp)
  intro arts
  induction arts with
  | nil =>
    intro groups h g hg
    exact h g hg
  | cons a as ih =>
    intro groups h g hg
    rw [List.foldl_cons] at hg
    exact ih _ (assignArticle_ne_nil groups a h) g hg

/-- C5 (amended): every cluster returned by `cluster_articles`, on every
path, satisfies `size = len(articles)`, `key_entities` of length at most 5
with no duplicates, and `size ≥ 1` whenever the input batch is non-empty (an
empty batch takes the degenerate path and yields one cluster of size 0). -/
theorem cluster_invariants (w : ClusterWorld) (articles : List Article) (mcs maxc : Nat)
    (hwf : clusterWf w articles) :
    ∀ c ∈ cluster_articles w articles mcs maxc,
      c.size = c.articles.length ∧ c.key_entities.length ≤ 5 ∧
      c.key_entities.Nodup ∧ (articles ≠ [] → 1 ≤ c.size) := by
  intro c hc
  unfold cluster_articles at hc
  by_cases hlen : articles.length < mcs
  · rw [if_pos hlen] at hc
    rw [List.mem_singleton.mp hc]
    refine ⟨rfl, extract_cluster_entities_len_le _, extract_cluster_entities_nodup _, ?_⟩
    intro hne
    exact List.length_pos.mpr hne
  · rw [if_neg hlen] at hc
    cases w with
    | errorFallback =>
      rw [List.mem_singleton.mp hc]
      refine ⟨rfl, extract_cluster_entities_len_le _, extract_cluster_entities_nodup _, ?_⟩
      intro hne
      exact List.length_pos.mpr hne
    | fallback =>
      unfold fallback_clustering at hc
      have hc2 := List.mem_of_mem_take hc
      have hc3 := (sortByDesc_perm (fun c : Cluster => c.size) _).mem_iff.mp hc2
      obtain ⟨p, hp, hpc⟩ := List.mem_filterMap.mp hc3
      split at hpc
      · obtain rfl := Option.some_injective _ hpc
        refine ⟨rfl, extract_cluster_entities_len_le _, extract_cluster_entities_nodup _, ?_⟩
        intro _
        have hsnd : p.2 ∈ (articles.foldl assignArticle []).enum.map Prod.snd :=
          List.mem_map_of_mem Prod.snd hp
        rw [List.enum_map_snd] at hsnd
        have := fallback_groups_ne_nil articles p.2 hsnd
        exact List.length_pos.mpr this
      · cases hpc
    | embed emb labels =>
      have hc2 := (sortByDesc_perm (fun c : Cluster => c.size) _).mem_iff.mp hc
      obtain ⟨g, hg, rfl⟩ := List.mem_map.mp hc2
      have hgf := List.mem_filter.mp hg
      refine ⟨rfl, extract_cluster_entities_len_le _, extract_cluster_entities_nodup _, ?_⟩
      intro _
      have hlen2 : (reassignNoise emb labels).length = articles.length := by
        unfold reassignNoise
        rw [foldl_noiseStep_length]
        exact hwf
      have hne := groupByLabel_nonempty _ _ hlen2 g hgf.1
      exact List.length_pos.mpr hne

/-- C5 counterexample: clustering an empty batch returns a single cluster of
size 0 — `size ≥ 1` fails as a universal invariant. -/
theorem cluster_size_zero_counterexample :
    ¬ (∀ c ∈ cluster_articles ClusterWorld.fallback [] 2 8, 1 ≤ c.size) := by
  decide

def artBeta : Article := { title := "Beta", content := "" }

/-- Witness for C5 at a concrete non-empty batch on the degenerate path. -/
theorem cluster_invariants_witness :
    mkCluster 0 [artAlpha, artBeta] ∈
      cluster_articles ClusterWorld.errorFallback [artAlpha, artBeta] 5 8 ∧
    ((mkCluster 0 [artAlpha, artBeta]).size =
        (mkCluster 0 [artAlpha, artBeta]).articles.length ∧
      (mkCluster 0 [artAlpha, artBeta]).key_entities.length ≤ 5 ∧
      (mkCluster 0 [artAlpha, artBeta]).key_entities.Nodup ∧
      ([artAlpha, artBeta] ≠ [] → 1 ≤ (mkCluster 0 [artAlpha, artBeta]).size)) :=
  ⟨by decide,
    cluster_invariants ClusterWorld.errorFallback [artAlpha, artBeta] 5 8 trivial
      (mkCluster 0 [artAlpha, artBeta]) (by decide)⟩

/-! ### Frequency facts for `extract_cluster_entities` (C6) -/

theorem counterMostCommon_snd (l : List String) (n : Nat) :
    ∀ p ∈ counterMostCommon l n, p.2 = l.count p.1 := by
  intro p hp
  unfold counterMostCommon at hp
  have hp2 := List.mem_of_mem_take hp
  have hp3 := (sortByDesc_perm (fun p : String × Nat => p.2) _).mem_iff.mp hp2
  obtain ⟨e, _, rfl⟩ := List.mem_map.mp hp3
  rfl

/-- C6 (amended): `extract_cluster_entities` prefilters to the 10 entities of
highest raw frequency before excluding short or singleton entities, so fewer
than 5 entities can be returned even when 5 qualify; still, every qualifying
entity (length > 2, frequency > 1) whose frequency strictly exceeds that of
some returned entity is itself returned. -/
theorem cluster_entities_high_freq (articles : List Article) (e r : String)
    (hr : r ∈ extract_cluster_entities articles)
    (hlen : 2 < e.length)
    (hcnt : 1 < (allEntities articles).count e)
    (hgt : (allEntities articles).count r < (allEntities articles).count e) :
    e ∈ extract_cluster_entities articles := by
  have he_all : e ∈ allEntities articles :=
    List.count_pos_iff.mp (Nat.lt_of_lt_of_le Nat.zero_lt_one (Nat.le_of_lt hcnt))
  have hpw : (sortByDesc (fun p : String × Nat => p.2)
      ((uniqFirst (allEntities articles)).map
        (fun x => (x, (allEntities articles).count x)))).Pairwise
      (fun a b => b.2 ≤ a.2) := sortByDesc_sorted _ _
  have hep : (e, (allEntities articles).count e) ∈
      sortByDesc (fun p : String × Nat => p.2)
        ((uniqFirst (allEntities articles)).map
          (fun x => (x, (allEntities articles).count x))) :=
    (sortByDesc_perm _ _).mem_iff.mpr
      (List.mem_map.mpr ⟨e, (mem_uniqFirst _ _).mpr he_all, rfl⟩)
  -- unpack the returned entity r into its pair in the filtered top-10 list
  have hr2 := List.mem_of_mem_take hr
  obtain ⟨pr, hprf, hpr1⟩ := List.mem_map.mp hr2
  have hprc : pr ∈ counterMostCommon (allEntities articles) 10 :=
    List.mem_of_mem_filter hprf
  have hpr2 : pr.2 = (allEntities articles).count r := by
    rw [← hpr1]
    exact counterMostCommon_snd _ 10 pr hprc
  -- the pair of e reaches the raw top 10
  have hetop : (e, (allEntities articles).count e) ∈
      counterMostCommon (allEntities articles) 10 := by
    rw [← List.take_append_drop 10 (sortByDesc (fun p : String × Nat => p.2)
      ((uniqFirst (allEntities articles)).map
        (fun x => (x, (allEntities articles).count x))))] at hep hpw
    rcases List.mem_append.mp hep with h | h
    · exact h
    · exfalso
      have := (List.pairwise_append.mp hpw).2.2 pr hprc _ h
      rw [hpr2] at this
      exact absurd this (Nat.not_le_of_lt hgt)
  have heq_filter : (e, (allEntities articles).count e) ∈
      (counterMostCommon (allEntities articles) 10).filter
        (fun p => decide (2 < p.1.length) && decide (1 < p.2)) :=
    List.mem_filter.mpr ⟨hetop, by simp [hlen, hcnt]⟩
  -- if e were cut by the final take 5, its count could not exceed r's
  by_contra hne
  have hfpw : ((counterMostCommon (allEntities articles) 10).filter
      (fun p => decide (2 < p.1.length) && decide (1 < p.2))).Pairwise
      (fun a b => b.2 ≤ a.2) :=
    (sortByDesc_sorted _ _).sublist
      ((List.filter_sublist _).trans (List.take_sublist 10 _))
  have hmapeq : ((((counterMostCommon (allEntities articles) 10).filter
        (fun p => decide (2 < p.1.length) && decide (1 < p.2))).map (fun p => p.1)).take 5) =
      (((counterMostCommon (allEntities articles) 10).filter
        (fun p => decide (2 < p.1.length) && decide (1 < p.2))).take 5).map
          (fun p => p.1) :=
    (List.map_take _ _ _).symm
  rw [← List.take_append_drop 5 ((counterMostCommon (allEntities articles) 10).filter
    (fun p => decide (2 < p.1.length) && decide (1 < p.2)))] at heq_filter hfpw
  rcases List.mem_append.mp heq_filter with h | h
  · exact hne (by
      show e ∈ extract_cluster_entities articles
      unfold extract_cluster_entities
      rw [hmapeq]
      exact List.mem_map.mpr ⟨_, h, rfl⟩)
  · -- e's pair sits in the dropped part; find r's pair in the kept part
    have hr3 : r ∈ (((counterMostCommon (allEntities articles) 10).filter
        (fun p => decide (2 < p.1.length) && decide (1 < p.2))).take 5).map
          (fun p => p.1) := by
      rw [← hmapeq]
      exact hr
    obtain ⟨pr', hpr'm, hpr'1⟩ := List.mem_map.mp hr3
    have hpr'2 : pr'.2 = (allEntities articles).count r := by
      rw [← hpr'1]
      refine counterMostCommon_snd _ 10 pr' ?_
      exact List.mem_of_mem_filter (List.mem_of_mem_take hpr'm)
    have hle := (List.pairwise_append.mp hfpw).2.2 pr' hpr'm _ h
    rw [hpr'2] at hle
    exact absurd hle (Nat.not_le_of_lt hgt)

def c6Article : Article :=
  { title := "",
    content := "Aa. Bb. Cc. Dd. Ee. Ff. Aa. Bb. Cc. Dd. Ee. Ff. Aa. Bb. Cc. Dd. Ee. Ff. Gaa. Haa. Iaa. Jaa. Kaa. Gaa. Haa. Iaa. Jaa. Kaa." }

/-- The claim's wording of the aggregation: exclude short and singleton
entities from the FULL frequency table first, then return the top 5 of the
remaining (ties in first-encountered order). -/
def extract_cluster_entities_claimed (articles : List Article) : List String :=
  (((sortByDesc (fun p => p.2) ((uniqFirst (allEntities articles)).map
      (fun e => (e, (allEntities articles).count e)))).filter
      (fun p => decide (2 < p.1.length) && decide (1 < p.2))).map (fun p => p.1)).take 5

set_option maxRecDepth 40000 in
/-- C6 counterexample: six 2-char entities of frequency 3 push the fifth
qualifying entity `"Kaa"` (length 3, frequency 2) out of `most_common(10)`
before the quality filter runs: the code returns only 4 entities although 5
qualify, so it does not return "the 5 highest-frequency remaining entities". -/
theorem cluster_entities_top10_counterexample :
    extract_cluster_entities [c6Article] = ["Gaa", "Haa", "Iaa", "Jaa"] ∧
    extract_cluster_entities_claimed [c6Article] = ["Gaa", "Haa", "Iaa", "Jaa", "Kaa"] ∧
    2 < "Kaa".length ∧ 1 < (allEntities [c6Article]).count "Kaa" ∧
    "Kaa" ∉ extract_cluster_entities [c6Article] := by
  refine ⟨by decide, by decide, by decide, by decide, by decide⟩

def c6wArticle : Article := { title := "", content := "Gaa. Gaa. Gaa. Haa. Haa." }

set_option maxRecDepth 40000 in
/-- Witness for C6 at a concrete cluster: `"Haa"` is returned and the more
frequent qualifying `"Gaa"` is returned as well. -/
theorem cluster_entities_high_freq_witness :
    "Gaa" ∈ extract_cluster_entities [c6wArticle] :=
  cluster_entities_high_freq [c6wArticle] "Gaa" "Haa" (by decide) (by decide) (by decide)
    (by decide)

/-! ### Character facts used by the text-cleanup development -/

theorem mem_lc_of_isLowerA (c : Char) (h : isLowerA c = true) : c ∈ lcChars :=
  List.mem_of_elem_eq_true h

theorem toUpperA_facts (c : Char) (h : isLowerA c = true) :
    isDigitA (toUpperA c) = false ∧ toUpperA c ≠ ':' ∧ isWsA (toUpperA c) = false ∧
      isLowerA (toUpperA c) = false := by
  have hmem := mem_lc_of_isLowerA c h
  fin_cases hmem <;> decide

theorem takeWhile_eq_nil_of_none (p : Char → Bool) (l : List Char)
    (h : ∀ c ∈ l, p c = false) : l.takeWhile p = [] := by
  cases l with
  | nil => rfl
  | cons c cs => simp [List.takeWhile_cons, h c (List.mem_cons_self c cs)]

theorem mem_of_mem_dropWhile (p : Char → Bool) (l : List Char) (c : Char)
    (h : c ∈ l.dropWhile p) : c ∈ l := by
  induction l with
  | nil => cases h
  | cons x xs ih =>
    rw [List.dropWhile_cons] at h
    by_cases hp : p x = true
    · rw [if_pos hp] at h
      exact List.mem_cons_of_mem _ (ih h)
    · rw [if_neg hp] at h
      exact h

/-! ### The `re.sub` passes are identities on digit-free / colon-free text -/

theorem matchNo_none_of_tail (c : Char) (r : List Char)
    (h : ∀ ch ∈ r, isDigitA ch = false) : matchNo (c :: r) = none := by
  unfold matchNo
  split
  next r2 heq =>
    injection heq with h1 h2
    subst h1
    have hr2 : ∀ ch ∈ r2, isDigitA ch = false := by
      intro ch hch
      refine h ch ?_
      rw [h2]
      exact List.mem_cons_of_mem _ (List.mem_cons_of_mem _ hch)
    have hds : (r2.dropWhile isWsA).takeWhile isDigitA = [] :=
      takeWhile_eq_nil_of_none _ _
        (fun ch hch => hr2 ch (mem_of_mem_dropWhile _ _ _ hch))
    simp [hds]
  next => rfl

theorem removeNoF_eq_self (fuel : Nat) (l : List Char)
    (h : ∀ ch ∈ l.tail, isDigitA ch = false) : removeNoF fuel l = l := by
  induction fuel generalizing l with
  | zero => rfl
  | succ n ih =>
    cases l with
    | nil => rfl
    | cons c r =>
      unfold removeNoF
      rw [matchNo_none_of_tail c r h]
      cases r with
      | nil => cases n <;> rfl
      | cons d r2 =>
        rw [ih (d :: r2) (fun ch hch => h ch (List.mem_cons_of_mem _ hch))]

theorem removeNo_eq_self (l : List Char) (h : ∀ ch ∈ l.tail, isDigitA ch = false) :
    removeNo l = l := removeNoF_eq_self l.length l h

theorem stripThe1_eq_self (l : List Char) (h : ∀ ch ∈ l.tail, ch ≠ ':') :
    stripThe1 l = l := by
  unfold stripThe1
  split
  next r =>
    exact absurd rfl (h ':' (by simp))
  next => rfl

theorem stripArt_eq_self (l : List Char) (h : ∀ ch ∈ l.tail, ch ≠ ':') :
    stripArt l = l := by
  unfold stripArt
  split
  next r => exact absurd rfl (h ':' (by simp))
  next r => exact absurd rfl (h ':' (by simp))
  next r => exact absurd rfl (h ':' (by simp))
  next => rfl

/-! ### Normal form of collapsed, stripped, capitalized text -/

/-- No two adjacent whitespace chars. -/
def NoWsRun (l : List Char) : Prop :=
  l.Chain' (fun a b => isWsA a = false ∨ isWsA b = false)

/-- Every whitespace char is a plain space. -/
def WsSp (l : List Char) : Prop := ∀ c ∈ l, isWsA c = true → c = ' '

theorem collapseAux_cons_ws_true (c : Char) (r : List Char) (h : isWsA c = true) :
    collapseAux true (c :: r) = collapseAux true r := by
  simp [collapseAux, h]

theorem collapseAux_cons_ws_false (c : Char) (r : List Char) (h : isWsA c = true) :
    collapseAux false (c :: r) = ' ' :: collapseAux true r := by
  simp [collapseAux, h]

theorem collapseAux_cons_nws (b : Bool) (c : Char) (r : List Char) (h : isWsA c = false) :
    collapseAux b (c :: r) = c :: collapseAux false r := by
  simp [collapseAux, h]

theorem collapseAux_props (l : List Char) :
    ∀ b, NoWsRun (collapseAux b l) ∧ WsSp (collapseAux b l) ∧
      (b = true → ∀ c, (collapseAux b l).head? = some c → isWsA c = false) := by
  induction l with
  | nil =>
    intro b
    refine ⟨List.chain'_nil, fun c hc => absurd hc (by simp [collapseAux]), ?_⟩
    intro _ c hc
    simp [collapseAux] at hc
  | cons c r ih =>
    intro b
    by_cases hws : isWsA c = true
    · cases b with
      | true =>
        have h1 := ih true
        rw [collapseAux_cons_ws_true c r hws]
        exact ⟨h1.1, h1.2.1, fun _ => h1.2.2 rfl⟩
      | false =>
        have h1 := ih true
        rw [collapseAux_cons_ws_false c r hws]
        refine ⟨?_, ?_, by simp⟩
        · unfold NoWsRun
          rw [List.chain'_cons']
          exact ⟨fun d hd => Or.inr (h1.2.2 rfl d hd), h1.1⟩
        · intro d hd hdws
          rcases List.mem_cons.mp hd with rfl | hd2
          · rfl
          · exact h1.2.1 d hd2 hdws
    · have h1 := ih false
      have hws2 : isWsA c = false := by simpa using hws
      rw [collapseAux_cons_nws b c r hws2]
      refine ⟨?_, ?_, ?_⟩
      · unfold NoWsRun
        rw [List.chain'_cons']
        exact ⟨fun d _ => Or.inl hws2, h1.1⟩
      · intro d hd hdws
        rcases List.mem_cons.mp hd with rfl | hd2
        · exact absurd hdws (by simp [hws2])
        · exact h1.2.1 d hd2 hdws
      · intro _ d hd
        simp only [List.head?_cons, Option.some_inj] at hd
        rw [← hd]
        exact hws2

theorem collapseAux_eq_self (l : List Char) :
    NoWsRun l → WsSp l →
    ∀ b, (b = true → ∀ c, l.head? = some c → isWsA c = false) → collapseAux b l = l := by
  induction l with
  | nil =>
    intro _ _ b _
    rfl
  | cons c r ih =>
    intro hrun hsp b hb
    have hrun2 := List.chain'_cons'.mp hrun
    by_cases hws : isWsA c = true
    · have hc : c = ' ' := hsp c (List.mem_cons_self _ _) hws
      cases b with
      | true => exact absurd (hb rfl c rfl) (by simp [hws])
      | false =>
        have hrtail : collapseAux true r = r := by
          refine ih hrun2.2 (fun d hd => hsp d (List.mem_cons_of_mem _ hd)) true ?_
          intro _ d hd
          rcases hrun2.1 d hd with h | h
          · rw [hws] at h
            cases h
          · exact h
        rw [collapseAux_cons_ws_false c r hws, hrtail, hc]
    · have hws2 : isWsA c = false := by simpa using hws
      have hrtail : collapseAux false r = r :=
        ih hrun2.2 (fun d hd => hsp d (List.mem_cons_of_mem _ hd)) false (by simp)
      rw [collapseAux_cons_nws b c r hws2, hrtail]

theorem dropWhile_head_false (p : Char → Bool) (l : List Char) :
    ∀ c, (l.dropWhile p).head? = some c → p c = false := by
  induction l with
  | nil =>
    intro c hc
    cases hc
  | cons x xs ih =>
    intro c hc
    rw [List.dropWhile_cons] at hc
    by_cases hp : p x = true
    · rw [if_pos hp] at hc
      exact ih c hc
    · rw [if_neg hp] at hc
      simp only [List.head?_cons, Option.some_inj] at hc
      rw [← hc]
      simpa using hp

theorem dropWhile_eq_self_of_head (p : Char → Bool) (l : List Char)
    (h : ∀ c, l.head? = some c → p c = false) : l.dropWhile p = l := by
  cases l with
  | nil => rfl
  | cons x xs => rw [List.dropWhile_cons, if_neg (by simp [h x rfl])]

theorem noWsRun_dropWhile (l : List Char) (h : NoWsRun l) : NoWsRun (l.dropWhile isWsA) := by
  induction l with
  | nil => exact h
  | cons x xs ih =>
    rw [List.dropWhile_cons]
    by_cases hp : isWsA x = true
    · rw [if_pos hp]
      exact ih (List.chain'_cons'.mp h).2
    · rw [if_neg hp]
      exact h

theorem dropEndWs_cons (c : Char) (r : List Char) :
    dropEndWs (c :: r) =
      if (dropEndWs r).isEmpty && isWsA c then [] else c :: dropEndWs r := by
  simp [dropEndWs]

theorem head?_dropEndWs (l : List Char) :
    dropEndWs l = [] ∨ (dropEndWs l).head? = l.head? := by
  cases l with
  | nil => exact Or.inl rfl
  | cons c r =>
    rw [dropEndWs_cons]
    by_cases hc : ((dropEndWs r).isEmpty && isWsA c) = true
    · rw [if_pos hc]
      exact Or.inl rfl
    · rw [if_neg hc]
      exact Or.inr rfl

theorem noWsRun_dropEndWs (l : List Char) (h : NoWsRun l) : NoWsRun (dropEndWs l) := by
  induction l with
  | nil => exact h
  | cons c r ih =>
    have h2 := List.chain'_cons'.mp h
    rw [dropEndWs_cons]
    by_cases hc : ((dropEndWs r).isEmpty && isWsA c) = true
    · rw [if_pos hc]
      exact List.chain'_nil
    · rw [if_neg hc]
      unfold NoWsRun
      rw [List.chain'_cons']
      refine ⟨?_, ih h2.2⟩
      intro d hd
      rcases head?_dropEndWs r with he | he
      · rw [he] at hd
        cases hd
      · rw [he] at hd
        exact h2.1 d hd

theorem mem_dropEndWs (l : List Char) (c : Char) (h : c ∈ dropEndWs l) : c ∈ l := by
  induction l with
  | nil => cases h
  | cons x xs ih =>
    rw [dropEndWs_cons] at h
    by_cases hc : ((dropEndWs xs).isEmpty && isWsA x) = true
    · rw [if_pos hc] at h
      cases h
    · rw [if_neg hc] at h
      rcases List.mem_cons.mp h with rfl | h2
      · exact List.mem_cons_self _ _
      · exact List.mem_cons_of_mem _ (ih h2)

theorem getLast?_dropEndWs_not_ws (l : List Char) :
    ∀ c, (dropEndWs l).getLast? = some c → isWsA c = false := by
  induction l with
  | nil =>
    intro c hc
    cases hc
  | cons x xs ih =>
    intro c hc
    rw [dropEndWs_cons] at hc
    by_cases hb : ((dropEndWs xs).isEmpty && isWsA x) = true
    · rw [if_pos hb] at hc
      cases hc
    · rw [if_neg hb] at hc
      cases hde : dropEndWs xs with
      | nil =>
        rw [hde] at hc
        simp only [List.getLast?_singleton, Option.some_inj] at hc
        rw [← hc]
        simpa [hde] using hb
      | cons d ds =>
        rw [hde] at hc
        rw [List.getLast?_cons_cons] at hc
        refine ih c ?_
        rw [hde]
        exact hc

theorem dropEndWs_eq_self (l : List Char)
    (h : ∀ c, l.getLast? = some c → isWsA c = false) : dropEndWs l = l := by
  induction l with
  | nil => rfl
  | cons x xs ih =>
    cases xs with
    | nil =>
      have hx : isWsA x = false := h x rfl
      rw [dropEndWs_cons]
      simp [dropEndWs, hx]
    | cons y ys =>
      have htail : dropEndWs (y :: ys) = y :: ys := by
        refine ih ?_
        intro c hc
        refine h c ?_
        rw [List.getLast?_cons_cons]
        exact hc
      rw [dropEndWs_cons, htail]
      simp

theorem mem_stripWs (l : List Char) (c : Char) (h : c ∈ stripWs l) : c ∈ l :=
  mem_of_mem_dropWhile _ _ _ (mem_dropEndWs _ _ h)

theorem stripWs_head_not_ws (l : List Char) :
    ∀ c, (stripWs l).head? = some c → isWsA c = false := by
  intro c hc
  unfold stripWs at hc
  rcases head?_dropEndWs (l.dropWhile isWsA) with he | he
  · rw [he] at hc
    cases hc
  · rw [he] at hc
    exact dropWhile_head_false isWsA l c hc

theorem stripWs_last_not_ws (l : List Char) :
    ∀ c, (stripWs l).getLast? = some c → isWsA c = false :=
  fun c hc => getLast?_dropEndWs_not_ws _ c hc

theorem noWsRun_stripWs (l : List Char) (h : NoWsRun l) : NoWsRun (stripWs l) :=
  noWsRun_dropEndWs _ (noWsRun_dropWhile l h)

theorem wsSp_stripWs (l : List Char) (h : WsSp l) : WsSp (stripWs l) :=
  fun c hc hws => h c (mem_stripWs l c hc) hws

theorem stripWs_eq_self (l : List Char)
    (hh : ∀ c, l.head? = some c → isWsA c = false)
    (hl : ∀ c, l.getLast? = some c → isWsA c = false) : stripWs l = l := by
  unfold stripWs
  rw [dropWhile_eq_self_of_head isWsA l hh]
  exact dropEndWs_eq_self l hl

theorem mem_collapseAux (l : List Char) (c : Char) :
    ∀ b, c ∈ collapseAux b l → c ∈ l ∨ c = ' ' := by
  induction l with
  | nil =>
    intro b h
    cases h
  | cons x xs ih =>
    intro b h
    by_cases hws : isWsA x = true
    · cases b with
      | true =>
        rw [collapseAux_cons_ws_true x xs hws] at h
        rcases ih true h with h2 | h2
        · exact Or.inl (List.mem_cons_of_mem _ h2)
        · exact Or.inr h2
      | false =>
        rw [collapseAux_cons_ws_false x xs hws] at h
        rcases List.mem_cons.mp h with rfl | h2
        · exact Or.inr rfl
        · rcases ih true h2 with h3 | h3
          · exact Or.inl (List.mem_cons_of_mem _ h3)
          · exact Or.inr h3
    · rw [collapseAux_cons_nws b x xs (by simpa using hws)] at h
      rcases List.mem_cons.mp h with rfl | h2
      · exact Or.inl (List.mem_cons_self _ _)
      · rcases ih false h2 with h3 | h3
        · exact Or.inl (List.mem_cons_of_mem _ h3)
        · exact Or.inr h3

theorem capFirst_head_cases (l : List Char) :
    capFirst l = l ∨
      ∃ c r, l = c :: r ∧ isLowerA c = true ∧ capFirst l = toUpperA c :: r := by
  cases l with
  | nil => exact Or.inl rfl
  | cons c r =>
    by_cases h : isLowerA c = true
    · exact Or.inr ⟨c, r, rfl, h, by simp [capFirst, h]⟩
    · exact Or.inl (by simp [capFirst, h])

theorem noWsRun_capFirst (l : List Char) (h : NoWsRun l) : NoWsRun (capFirst l) := by
  rcases capFirst_head_cases l with he | ⟨c, r, rfl, hlc, he⟩
  · rw [he]
    exact h
  · rw [he]
    unfold NoWsRun at h ⊢
    rw [List.chain'_cons'] at h ⊢
    exact ⟨fun d _ => Or.inl (toUpperA_facts c hlc).2.2.1, h.2⟩

theorem wsSp_capFirst (l : List Char) (h : WsSp l) : WsSp (capFirst l) := by
  rcases capFirst_head_cases l with he | ⟨c, r, rfl, hlc, he⟩
  · rw [he]
    exact h
  · rw [he]
    intro d hd hdws
    rcases List.mem_cons.mp hd with rfl | hd2
    · exact absurd hdws (by simp [(toUpperA_facts c hlc).2.2.1])
    · exact h d (List.mem_cons_of_mem _ hd2) hdws

theorem capFirst_head_not_ws (l : List Char)
    (h : ∀ c, l.head? = some c → isWsA c = false) :
    ∀ c, (capFirst l).head? = some c → isWsA c = false := by
  rcases capFirst_head_cases l with he | ⟨c, r, rfl, hlc, he⟩
  · rw [he]
    exact h
  · rw [he]
    intro d hd
    simp only [List.head?_cons, Option.some_inj] at hd
    rw [← hd]
    exact (toUpperA_facts c hlc).2.2.1

theorem capFirst_last_not_ws (l : List Char)
    (h : ∀ c, l.getLast? = some c → isWsA c = false) :
    ∀ c, (capFirst l).getLast? = some c → isWsA c = false := by
  rcases capFirst_head_cases l with he | ⟨c, r, rfl, hlc, he⟩
  · rw [he]
    exact h
  · rw [he]
    cases r with
    | nil =>
      intro d hd
      simp only [List.getLast?_singleton, Option.some_inj] at hd
      rw [← hd]
      exact (toUpperA_facts c hlc).2.2.1
    | cons y ys =>
      intro d hd
      rw [List.getLast?_cons_cons] at hd
      refine h d ?_
      rw [List.getLast?_cons_cons]
      exact hd

theorem capFirst_idem (l : List Char) : capFirst (capFirst l) = capFirst l := by
  rcases capFirst_head_cases l with he | ⟨c, r, rfl, hlc, he⟩
  · rw [he]
    exact he
  · rw [he]
    simp [capFirst, (toUpperA_facts c hlc).2.2.2]

/-- The tail of `_clean_summary_text`: collapse whitespace, strip, capitalize
the first letter. -/
def finishClean (l : List Char) : List Char := capFirst (stripWs (collapseWs l))

theorem finishClean_idem (l : List Char) :
    finishClean (finishClean l) = finishClean l := by
  have hcol := collapseAux_props l false
  have hrun_m : NoWsRun (stripWs (collapseWs l)) := noWsRun_stripWs _ hcol.1
  have hsp_m : WsSp (stripWs (collapseWs l)) := wsSp_stripWs _ hcol.2.1
  have hrun_g : NoWsRun (finishClean l) := noWsRun_capFirst _ hrun_m
  have hsp_g : WsSp (finishClean l) := wsSp_capFirst _ hsp_m
  have hhead_g : ∀ c, (finishClean l).head? = some c → isWsA c = false :=
    capFirst_head_not_ws _ (stripWs_head_not_ws _)
  have hlast_g : ∀ c, (finishClean l).getLast? = some c → isWsA c = false :=
    capFirst_last_not_ws _ (stripWs_last_not_ws _)
  show capFirst (stripWs (collapseWs (finishClean l))) = finishClean l
  rw [show collapseWs (finishClean l) = finishClean l from
    collapseAux_eq_self _ hrun_g hsp_g false (by simp)]
  rw [stripWs_eq_self _ hhead_g hlast_g]
  show capFirst (capFirst (stripWs (collapseWs l))) = capFirst (stripWs (collapseWs l))
  exact capFirst_idem _

theorem finishClean_pres (l : List Char)
    (hd : ∀ c ∈ l, isDigitA c = false) (hc : ∀ c ∈ l, c ≠ ':') :
    (∀ c ∈ finishClean l, isDigitA c = false) ∧ (∀ c ∈ finishClean l, c ≠ ':') := by
  have hmd : ∀ c ∈ stripWs (collapseWs l), isDigitA c = false := by
    intro c hcm
    rcases mem_collapseAux l c false (mem_stripWs _ c hcm) with h | h
    · exact hd c h
    · rw [h]
      rfl
  have hmc : ∀ c ∈ stripWs (collapseWs l), c ≠ ':' := by
    intro c hcm
    rcases mem_collapseAux l c false (mem_stripWs _ c hcm) with h | h
    · exact hc c h
    · rw [h]
      decide
  unfold finishClean
  rcases capFirst_head_cases (stripWs (collapseWs l)) with he | ⟨x, r, hxr, hlc, he⟩
  · rw [he]
    exact ⟨hmd, hmc⟩
  · rw [he]
    constructor
    · intro c hcf
      rcases List.mem_cons.mp hcf with rfl | h2
      · exact (toUpperA_facts x hlc).1
      · refine hmd c ?_
        rw [hxr]
        exact List.mem_cons_of_mem _ h2
    · intro c hcf
      rcases List.mem_cons.mp hcf with rfl | h2
      · exact (toUpperA_facts x hlc).2.1
      · refine hmc c ?_
        rw [hxr]
        exact List.mem_cons_of_mem _ h2

/-- C7 (amended): `_clean_summary_text` is not idempotent in general, but it
is idempotent on inputs containing no ASCII digit and no colon — there the
`No. n` and `The:/A:/An:` passes are identities (and remain so after one
cleanup), and collapse–strip–capitalize is a projection. -/
theorem clean_summary_idem_nodigit_nocolon (s : String)
    (hd : ∀ c ∈ s.data, isDigitA c = false) (hc : ∀ c ∈ s.data, c ≠ ':') :
    clean_summary_text (clean_summary_text s) = clean_summary_text s := by
  have tailsub : ∀ (l : List Char), ∀ c ∈ l.tail, c ∈ l := by
    intro l c hcl
    cases l with
    | nil => cases hcl
    | cons x xs => exact List.mem_cons_of_mem _ hcl
  have hstep : ∀ (l : List Char), (∀ c ∈ l, isDigitA c = false) → (∀ c ∈ l, c ≠ ':') →
      stripArt (stripThe1 (removeNo l)) = l := by
    intro l h1 h2
    rw [removeNo_eq_self l (fun ch hch => h1 ch (tailsub l ch hch)),
        stripThe1_eq_self l (fun ch hch => h2 ch (tailsub l ch hch)),
        stripArt_eq_self l (fun ch hch => h2 ch (tailsub l ch hch))]
  have h1 : clean_summary_text s = String.mk (finishClean s.data) := by
    unfold clean_summary_text
    rw [hstep s.data hd hc]
    rfl
  have hpres := finishClean_pres s.data hd hc
  have h2 : clean_summary_text (String.mk (finishClean s.data)) =
      String.mk (finishClean (finishClean s.data)) := by
    unfold clean_summary_text
    have hdata : (String.mk (finishClean s.data)).data = finishClean s.data := rfl
    rw [hdata, hstep (finishClean s.data) hpres.1 hpres.2]
    rfl
  rw [h1, h2, finishClean_idem]

/-- C7 counterexample: capitalizing the first letter creates a `The:` prefix
that only the second pass strips — `clean("the: x") = "The: x"` but
`clean(clean("the: x")) = "X"`. -/
theorem clean_summary_not_idempotent :
    clean_summary_text "the: x" = "The: x" ∧
    clean_summary_text (clean_summary_text "the: x") = "X" ∧
    clean_summary_text (clean_summary_text "the: x") ≠ clean_summary_text "the: x" := by
  refine ⟨by decide, by decide, by decide⟩

/-- Witness for C7 on a digit-free, colon-free string. -/
theorem clean_summary_idem_witness :
    clean_summary_text (clean_summary_text "hello  world") =
      clean_summary_text "hello  world" :=
  clean_summary_idem_nodigit_nocolon "hello  world" (by decide) (by decide)

/-! ### The noise-reassignment loop (C4) -/

/-- Weak version of Python's tuple order on `(distance, cluster_id)`. -/
def leLexQ (a b : ℚ × Int) : Prop := a.1 < b.1 ∨ (a.1 = b.1 ∧ a.2 ≤ b.2)

theorem leLexQ_refl (a : ℚ × Int) : leLexQ a a := Or.inr ⟨rfl, le_refl _⟩

theorem leLexQ_trans (a b c : ℚ × Int) (h1 : leLexQ a b) (h2 : leLexQ b c) : leLexQ a c := by
  rcases h1 with h1 | ⟨h1e, h1i⟩
  · rcases h2 with h2 | ⟨h2e, _⟩
    · exact Or.inl (lt_trans h1 h2)
    · exact Or.inl (by rw [← h2e]; exact h1)
  · rcases h2 with h2 | ⟨h2e, h2i⟩
    · exact Or.inl (by rw [h1e]; exact h2)
    · exact Or.inr ⟨h1e.trans h2e, le_trans h1i h2i⟩

theorem ltLexB_le (q p : ℚ × Int) (h : ltLexB q p = true) : leLexQ q p := by
  unfold ltLexB at h
  simp only [Bool.or_eq_true, Bool.and_eq_true, decide_eq_true_eq] at h
  rcases h with h | ⟨he, hi⟩
  · exact Or.inl h
  · exact Or.inr ⟨he, le_of_lt hi⟩

theorem not_ltLexB_le (q p : ℚ × Int) (h : ltLexB q p = false) : leLexQ p q := by
  unfold ltLexB at h
  simp only [Bool.or_eq_false_iff, Bool.and_eq_false_iff, decide_eq_false_iff_not] at h
  rcases lt_trichotomy p.1 q.1 with hlt | heq | hgt
  · exact Or.inl hlt
  · refine Or.inr ⟨heq, ?_⟩
    rcases h.2 with h2 | h2
    · exact absurd heq.symm h2
    · exact le_of_not_lt h2
  · exact absurd hgt h.1

theorem foldl_min_spec (p : ℚ × Int) (ps : List (ℚ × Int)) :
    (ps.foldl (fun b x => if ltLexB x b then x else b) p) ∈ p :: ps ∧
    leLexQ (ps.foldl (fun b x => if ltLexB x b then x else b) p) p ∧
    ∀ x ∈ ps, leLexQ (ps.foldl (fun b x => if ltLexB x b then x else b) p) x := by
  induction ps generalizing p with
  | nil => exact ⟨List.mem_cons_self _ _, leLexQ_refl p, by simp⟩
  | cons q qs ih =>
    rw [List.foldl_cons]
    by_cases hlt : ltLexB q p = true
    · rw [if_pos hlt]
      obtain ⟨hmem, hle, hall⟩ := ih q
      refine ⟨?_, ?_, ?_⟩
      · rcases List.mem_cons.mp hmem with h | h
        · rw [h]
          exact List.mem_cons_of_mem _ (List.mem_cons_self _ _)
        · exact List.mem_cons_of_mem _ (List.mem_cons_of_mem _ h)
      · exact leLexQ_trans _ _ _ hle (ltLexB_le q p hlt)
      · intro x hx
        rcases List.mem_cons.mp hx with rfl | hx2
        · exact hle
        · exact hall x hx2
    · rw [if_neg hlt]
      obtain ⟨hmem, hle, hall⟩ := ih p
      refine ⟨?_, hle, ?_⟩
      · rcases List.mem_cons.mp hmem with h | h
        · rw [h]
          exact List.mem_cons_self _ _
        · exact List.mem_cons_of_mem _ (List.mem_cons_of_mem _ h)
      · intro x hx
        rcases List.mem_cons.mp hx with rfl | hx2
        · exact leLexQ_trans _ _ _ hle
            (not_ltLexB_le x p (Bool.eq_false_iff.mpr hlt))
        · exact hall x hx2

theorem minLex_spec (l : List (ℚ × Int)) (m : ℚ × Int) (h : minLex l = some m) :
    m ∈ l ∧ ∀ x ∈ l, leLexQ m x := by
  cases l with
  | nil => cases h
  | cons p ps =>
    unfold minLex at h
    injection h with h
    subst h
    obtain ⟨hmem, hlep, hall⟩ := foldl_min_spec p ps
    refine ⟨hmem, ?_⟩
    intro x hx
    rcases List.mem_cons.mp hx with rfl | hx2
    · exact hlep
    · exact hall x hx2

theorem getD_set_ne (l : List Int) (i j : Nat) (a : Int) (h : i ≠ j) :
    (l.set i a).getD j 0 = l.getD j 0 := by
  rw [List.getD_eq_getElem?_getD, List.getD_eq_getElem?_getD, List.getElem?_set_ne h]

theorem getD_set_self (l : List Int) (i : Nat) (a : Int) (h : i < l.length) :
    (l.set i a).getD i 0 = a := by
  rw [List.getD_eq_getElem?_getD, List.getElem?_set_self h]
  rfl

/-- When a non-noise cluster exists, the loop body for noise index `idx`
writes the id minimising (squared distance to centroid, id) in Python's tuple
order, computed against the CURRENT labelling. -/
theorem noiseStep_of_nonNoise_ne_nil (emb : List (List ℚ)) (labels : List Int) (idx : Nat)
    (h : nonNoiseIds labels ≠ []) :
    ∃ cid ∈ nonNoiseIds labels,
      noiseStep emb labels idx = labels.set idx cid ∧
      ∀ cid2 ∈ nonNoiseIds labels,
        leLexQ (sqDist (emb.getD idx []) (centroid emb labels cid), cid)
          (sqDist (emb.getD idx []) (centroid emb labels cid2), cid2) := by
  cases hm : minLex ((nonNoiseIds labels).map
      (fun cid => (sqDist (emb.getD idx []) (centroid emb labels cid), cid))) with
  | none =>
    exfalso
    cases hnn : nonNoiseIds labels with
    | nil => exact h hnn
    | cons a as =>
      rw [hnn] at hm
      simp [minLex] at hm
  | some dc =>
    obtain ⟨hmem, hall⟩ := minLex_spec _ dc hm
    obtain ⟨cid, hcid, hdc⟩ := List.mem_map.mp hmem
    refine ⟨cid, hcid, ?_, ?_⟩
    · unfold noiseStep
      rw [hm, ← hdc]
    · intro cid2 hcid2
      have hx := hall _ (List.mem_map_of_mem _ hcid2)
      rw [← hdc] at hx
      exact hx

theorem noiseStep_id_of_no_nonNoise (emb : List (List ℚ)) (labels : List Int) (idx : Nat)
    (h : nonNoiseIds labels = []) : noiseStep emb labels idx = labels := by
  unfold noiseStep
  rw [h]
  rfl

/-- Invariants of the noise loop over a list of distinct in-range indices:
values other than `-1` stay inside `S`, some non-noise value persists,
unprocessed positions are untouched, and processed positions end in `S`. -/
theorem reassign_fold_props (emb : List (List ℚ)) (idxs : List Nat) :
    ∀ (L S : List Int),
    (∀ v ∈ L, v ≠ -1 → v ∈ S) →
    (∃ v ∈ L, v ≠ -1) →
    (∀ i ∈ idxs, i < L.length) →
    idxs.Nodup →
    (∀ v ∈ idxs.foldl (noiseStep emb) L, v ≠ -1 → v ∈ S) ∧
    (∃ v ∈ idxs.foldl (noiseStep emb) L, v ≠ -1) ∧
    (∀ j, j ∉ idxs → (idxs.foldl (noiseStep emb) L).getD j 0 = L.getD j 0) ∧
    (∀ j ∈ idxs, (idxs.foldl (noiseStep emb) L).getD j 0 ∈ S) := by
  induction idxs with
  | nil =>
    intro L S hsub hex _ _
    exact ⟨hsub, hex, fun j _ => rfl, by simp⟩
  | cons i is ih =>
    intro L S hsub hex hlt hnd
    rw [List.foldl_cons]
    have hnnne : nonNoiseIds L ≠ [] := by
      obtain ⟨v, hv, hvne⟩ := hex
      exact List.ne_nil_of_mem
        ((mem_uniqFirst _ _).mpr (List.mem_filter.mpr ⟨hv, by simp [hvne]⟩))
    obtain ⟨cid, hcid, hstep, _⟩ := noiseStep_of_nonNoise_ne_nil emb L i hnnne
    have hcidmemL := List.mem_filter.mp ((mem_uniqFirst _ _).mp hcid)
    have hcidne : cid ≠ -1 := by simpa using hcidmemL.2
    have hcidS : cid ∈ S := hsub cid hcidmemL.1 hcidne
    have hilen : i < L.length := hlt i (List.mem_cons_self _ _)
    rw [hstep]
    have hmemset : cid ∈ L.set i cid := by
      have hig : i < (L.set i cid).length := by
        rw [List.length_set]
        exact hilen
      have hg : (L.set i cid)[i] = cid := by
        have hgd := getD_set_self L i cid hilen
        rw [List.getD_eq_getElem _ 0 hig] at hgd
        exact hgd
      have hm2 := List.getElem_mem hig
      rw [hg] at hm2
      exact hm2
    have hnd2 := List.nodup_cons.mp hnd
    obtain ⟨IH1, IH2, IH3, IH4⟩ := ih (L.set i cid) S
      (fun v hv hvne => (List.mem_or_eq_of_mem_set hv).elim
        (fun h => hsub v h hvne) (fun h => h ▸ hcidS))
      ⟨cid, hmemset, hcidne⟩
      (fun j hj => by
        rw [List.length_set]
        exact hlt j (List.mem_cons_of_mem _ hj))
      hnd2.2
    refine ⟨IH1, IH2, ?_, ?_⟩
    · intro j hj
      have hji : i ≠ j := fun he => hj (he ▸ List.mem_cons_self _ _)
      have hjis : j ∉ is := fun he => hj (List.mem_cons_of_mem _ he)
      rw [IH3 j hjis]
      exact getD_set_ne L i j cid hji
    · intro j hj
      rcases List.mem_cons.mp hj with rfl | hjis
      · rw [IH3 j hnd2.1, getD_set_self L j cid hilen]
        exact hcidS
      · exact IH4 j hjis

theorem uniqAux_eq_nil_of_seen [DecidableEq α] (seen l : List α)
    (h : ∀ x ∈ l, x ∈ seen) : uniqAux seen l = [] := by
  induction l with
  | nil => rfl
  | cons x xs ih =>
    unfold uniqAux
    rw [if_pos (h x (List.mem_cons_self _ _))]
    exact ih (fun y hy => h y (List.mem_cons_of_mem _ hy))

theorem reassignNoise_all_noise (emb : List (List ℚ)) (labels : List Int)
    (h : ∀ l ∈ labels, l = -1) : reassignNoise emb labels = labels := by
  have hnn : nonNoiseIds labels = [] := by
    unfold nonNoiseIds
    rw [List.filter_eq_nil_iff.mpr (fun a ha => by simp [h a ha])]
    rfl
  unfold reassignNoise
  induction noiseIdxs labels with
  | nil => rfl
  | cons i is ih =>
    rw [List.foldl_cons, noiseStep_id_of_no_nonNoise emb labels i hnn]
    exact ih

theorem cluster_embed_all_noise (emb : List (List ℚ)) (labels : List Int)
    (articles : List Article) (mcs maxc : Nat)
    (hall : ∀ l ∈ labels, l = -1)
    (hlen : labels.length = articles.length)
    (hmcs : mcs ≤ articles.length)
    (hne : articles ≠ []) :
    cluster_articles (ClusterWorld.embed emb labels) articles mcs maxc =
      [mkCluster (-1) articles] := by
  have hlne : labels ≠ [] := by
    intro h
    rw [h] at hlen
    exact hne (List.eq_nil_of_length_eq_zero hlen.symm)
  have huniq : uniqFirst labels = [-1] := by
    cases labels with
    | nil => exact absurd rfl hlne
    | cons x xs =>
      have hx : x = -1 := hall x (List.mem_cons_self _ _)
      show uniqAux [] (x :: xs) = [-1]
      unfold uniqAux
      rw [if_neg (List.not_mem_nil x)]
      rw [uniqAux_eq_nil_of_seen [x] xs (fun y hy => List.mem_singleton.mpr
        ((hall y (List.mem_cons_of_mem _ hy)).trans hx.symm))]
      rw [hx]
  have hfil : (labels.zip articles).filter (fun p => decide (p.1 = (-1 : Int))) =
      labels.zip articles :=
    List.filter_eq_self.mpr (fun p hp => by simp [hall p.1 (List.of_mem_zip hp).1])
  have hsnd : (labels.zip articles).map (fun p => p.2) = articles :=
    List.map_snd_zip labels articles (le_of_eq hlen.symm)
  have hgrp : groupByLabel labels articles = [((-1 : Int), articles)] := by
    unfold groupByLabel
    rw [huniq]
    simp only [List.map_cons, List.map_nil]
    rw [hfil, hsnd]
  unfold cluster_articles
  rw [if_neg (Nat.not_lt.mpr hmcs)]
  show sortByDesc (fun c => c.size)
      (((groupByLabel (reassignNoise emb labels) articles).filter
        (fun g => decide (mcs ≤ g.2.length))).map (fun g => mkCluster g.1 g.2)) =
    [mkCluster (-1) articles]
  rw [reassignNoise_all_noise emb labels hall, hgrp]
  simp [hmcs, sortByDesc, insDesc]

/-- C4 (amended): in the embedding path, when at least one non-noise cluster
exists, every noise point is reassigned (in increasing index order) to an
existing non-noise cluster id — the one minimising the pair (squared
Euclidean distance to the cluster centroid, id) in Python's tuple order,
with centroids computed against the labelling current at that iteration,
which already includes earlier reassigned noise points; non-noise positions
never change. When NO non-noise cluster exists, all labels stay `-1` and the
points are NOT dropped: the whole batch is returned as a single cluster with
`cluster_id = -1` (its size is the full batch, which passes the
`min_cluster_size` filter). -/
theorem noise_reassignment (emb : List (List ℚ)) (labels : List Int)
    (articles : List Article) (mcs maxc : Nat)
    (hlen : labels.length = articles.length) :
    ((∀ l ∈ labels, l = -1) →
      reassignNoise emb labels = labels ∧
      (mcs ≤ articles.length → articles ≠ [] →
        cluster_articles (ClusterWorld.embed emb labels) articles mcs maxc =
          [mkCluster (-1) articles])) ∧
    ((∃ l ∈ labels, l ≠ -1) →
      (∀ l ∈ reassignNoise emb labels, l ≠ -1) ∧
      (∀ j, j < labels.length → labels.getD j 0 ≠ -1 →
        (reassignNoise emb labels).getD j 0 = labels.getD j 0) ∧
      (∀ j, j < labels.length → labels.getD j 0 = -1 →
        (reassignNoise emb labels).getD j 0 ∈ nonNoiseIds labels)) ∧
    (∀ k, k < (noiseIdxs labels).length →
      nonNoiseIds (reassignUpto emb labels k) ≠ [] →
      ∃ cid ∈ nonNoiseIds (reassignUpto emb labels k),
        reassignUpto emb labels (k + 1) =
          (reassignUpto emb labels k).set ((noiseIdxs labels).getD k 0) cid ∧
        ∀ cid2 ∈ nonNoiseIds (reassignUpto emb labels k),
          leLexQ
            (sqDist (emb.getD ((noiseIdxs labels).getD k 0) [])
              (centroid emb (reassignUpto emb labels k) cid), cid)
            (sqDist (emb.getD ((noiseIdxs labels).getD k 0) [])
              (centroid emb (reassignUpto emb labels k) cid2), cid2)) := by
  have hmemchar : ∀ j, j ∈ noiseIdxs labels ↔
      (j < labels.length ∧ labels.getD j 0 = -1) := by
    intro j
    unfold noiseIdxs
    rw [List.mem_filter, List.mem_range]
    simp
  refine ⟨?_, ?_, ?_⟩
  · intro hall
    exact ⟨reassignNoise_all_noise emb labels hall,
      fun hmcs hne => cluster_embed_all_noise emb labels articles mcs maxc hall hlen hmcs hne⟩
  · intro hex
    have hsub : ∀ v ∈ labels, v ≠ -1 → v ∈ nonNoiseIds labels := fun v hv hvne =>
      (mem_uniqFirst _ _).mpr (List.mem_filter.mpr ⟨hv, by simp [hvne]⟩)
    have hSne : ∀ v ∈ nonNoiseIds labels, v ≠ -1 := by
      intro v hv
      have h2 := List.mem_filter.mp ((mem_uniqFirst _ _).mp hv)
      simpa using h2.2
    have hin : ∀ i ∈ noiseIdxs labels, i < labels.length :=
      fun i hi => ((hmemchar i).mp hi).1
    have hnd : (noiseIdxs labels).Nodup := List.Nodup.filter _ (List.nodup_range _)
    obtain ⟨_, _, P3, P4⟩ := reassign_fold_props emb (noiseIdxs labels) labels
      (nonNoiseIds labels) hsub hex hin hnd
    have hrlen : (reassignNoise emb labels).length = labels.length :=
      foldl_noiseStep_length emb (noiseIdxs labels) labels
    have P3' : ∀ j, j ∉ noiseIdxs labels →
        (reassignNoise emb labels).getD j 0 = labels.getD j 0 := P3
    have P4' : ∀ j ∈ noiseIdxs labels,
        (reassignNoise emb labels).getD j 0 ∈ nonNoiseIds labels := P4
    refine ⟨?_, ?_, ?_⟩
    · intro v hv
      obtain ⟨j, hj, hjv⟩ := List.mem_iff_getElem.mp hv
      have hjlen : j < labels.length := by
        rw [hrlen] at hj
        exact hj
      have hgd : (reassignNoise emb labels).getD j 0 = v := by
        rw [List.getD_eq_getElem _ 0 hj]
        exact hjv
      by_cases hjn : j ∈ noiseIdxs labels
      · have h4 := P4' j hjn
        rw [hgd] at h4
        exact hSne v h4
      · have h3 := P3' j hjn
        rw [hgd] at h3
        have hne2 : labels.getD j 0 ≠ -1 := fun heq =>
          hjn ((hmemchar j).mpr ⟨hjlen, heq⟩)
        rw [h3]
        exact hne2
    · intro j hjlen hne2
      refine P3' j ?_
      intro hjn
      exact hne2 ((hmemchar j).mp hjn).2
    · intro j hjlen heq
      exact P4' j ((hmemchar j).mpr ⟨hjlen, heq⟩)
  · intro k hk hnn
    obtain ⟨cid, hcid, hstep, hmin⟩ := noiseStep_of_nonNoise_ne_nil emb
      (reassignUpto emb labels k) ((noiseIdxs labels).getD k 0) hnn
    refine ⟨cid, hcid, ?_, hmin⟩
    have htake : (noiseIdxs labels).take (k + 1) =
        (noiseIdxs labels).take k ++ [(noiseIdxs labels).getD k 0] := by
      rw [List.take_succ, List.getElem?_eq_getElem hk]
      rw [List.getD_eq_getElem _ 0 hk]
      rfl
    show ((noiseIdxs labels).take (k + 1)).foldl (noiseStep emb) labels =
      (reassignUpto emb labels k).set ((noiseIdxs labels).getD k 0) cid
    rw [htake, List.foldl_append]
    simp only [List.foldl_cons, List.foldl_nil]
    exact hstep

def artGamma : Article := { title := "Gamma", content := "" }

/-- C4 counterexample: a batch where DBSCAN labels every point noise. No
non-noise cluster exists, so the claim says the points are dropped from the
output; instead the code groups them under label `-1`, the group (size 3 ≥
min_cluster_size 2) passes the size filter, and the output is one cluster
with `cluster_id = -1` containing every article. -/
theorem noise_kept_counterexample :
    cluster_articles (ClusterWorld.embed [[0], [0], [1]] [-1, -1, -1])
        [artAlpha, artBeta, artGamma] 2 8 =
      [mkCluster (-1) [artAlpha, artBeta, artGamma]] ∧
    artAlpha ∈ (mkCluster (-1) [artAlpha, artBeta, artGamma]).articles := by
  refine ⟨by decide, by decide⟩

/-- Witness for C4 on the all-noise branch at a concrete batch. -/
theorem noise_reassignment_witness :
    reassignNoise [[0], [0], [1]] [-1, -1, -1] = [-1, -1, -1] ∧
    cluster_articles (ClusterWorld.embed [[0], [0], [1]] [-1, -1, -1])
        [artAlpha, artBeta, artGamma] 2 8 =
      [mkCluster (-1) [artAlpha, artBeta, artGamma]] :=
  have h := noise_reassignment [[0], [0], [1]] [-1, -1, -1]
    [artAlpha, artBeta, artGamma] 2 8 (by decide)
  ⟨(h.1 (by decide)).1, (h.1 (by decide)).2 (by decide) (by decide)⟩
